import Mathlib

/-!
Verification of the CDP (Collateralized Debt Position) cache subsystem of
WaykiChain, `src/persistence/cdpdb.h`.

The repository snapshot contains only the header.  Everything declared there
with an inline body (the `CUserCDP` record, its constructors, `operator<`,
the serialized field list, `IsEmpty`/`SetEmpty`, the constructors of
`CCdpMemCache` and `CCdpDBCache`, `SetBaseView`, `UndoCdp`) is embedded from
the source.  Method bodies that live in the missing `cdpdb.cpp` /
`dbaccess.h` (`SaveCdp`, `EraseCdp`, `GetCdpListByCollateralRatio`,
`GetGlobalCollateral`, `Flush`, `StakeBcoinsToCdp`, `UndoData`) are
modelled from the specification, as flagged in their doc comments.

The C++ field `collateralRatioBase` is a `double`.  We embed it as an exact
value: a rational number, extended with the IEEE special values that the
expression `double(totalStakedBcoins) / totalOwedScoins` can produce —
positive infinity (positive numerator, zero denominator) and NaN
(zero over zero).  Rounding of large 64-bit values to `double` is not
modelled; every concrete value appearing in the claims is exactly
representable.  IEEE comparison semantics (NaN compares false under both
`==` and `<`) are preserved.
-/

/-- Embedded value of the C++ `double` field `collateralRatioBase`:
an exact rational, or IEEE positive infinity, or IEEE NaN. -/
inductive Dbl where
  | nan : Dbl
  | inf : Dbl
  | val : ℚ → Dbl
deriving DecidableEq

/-- IEEE `==` on embedded doubles: NaN is not equal to anything,
including itself. -/
def Dbl.beq : Dbl → Dbl → Bool
  | .nan, _ => false
  | _, .nan => false
  | .inf, .inf => true
  | .inf, .val _ => false
  | .val _, .inf => false
  | .val a, .val b => decide (a = b)

/-- IEEE `<` on embedded doubles: any comparison with NaN is false, and
positive infinity is strictly above every finite value. -/
def Dbl.ltb : Dbl → Dbl → Bool
  | .nan, _ => false
  | _, .nan => false
  | .inf, _ => false
  | .val _, .inf => true
  | .val a, .val b => decide (a < b)

/-- The value the source computes on deserialization:
`collateralRatioBase = double(totalStakedBcoins) / totalOwedScoins`.
With a zero denominator IEEE division yields +infinity for a positive
numerator and NaN for `0/0`; otherwise the exact quotient. -/
def ratOf (staked owed : Nat) : Dbl :=
  if owed = 0 then (if staked = 0 then Dbl.nan else Dbl.inf)
  else Dbl.val (mkRat staked owed)

/-- Helper: for natural numerator and denominator, `mkRat` is the cast
quotient, so `ratOf` computes exactly
`totalStakedBcoins / totalOwedScoins`. -/
theorem mkRat_cast_div (a b : Nat) : mkRat a b = (a : ℚ) / (b : ℚ) := by
  rw [Rat.mkRat_eq_div]
  norm_num

/-- Embedding of `struct CUserCDP` (cdpdb.h lines 27-92).
`CRegID` and `uint256` are abstracted as naturals with their equality and
order; `int32_t blockHeight` as an integer. -/
structure CUserCDP where
  collateralRatioBase : Dbl
  ownerRegId : Nat
  cdpTxId : Nat
  blockHeight : Int
  totalStakedBcoins : Nat
  totalOwedScoins : Nat
deriving DecidableEq

/-- Embedding of `CUserCDP::operator<` (cdpdb.h lines 41-50): compare
`collateralRatioBase` with IEEE `==`; on equality tie-break by
`ownerRegId`, then by `cdpTxId`; otherwise IEEE `<` of the ratios. -/
def CUserCDP.ltb (c d : CUserCDP) : Bool :=
  if Dbl.beq c.collateralRatioBase d.collateralRatioBase then
    if c.ownerRegId = d.ownerRegId then decide (c.cdpTxId < d.cdpTxId)
    else decide (c.ownerRegId < d.ownerRegId)
  else Dbl.ltb c.collateralRatioBase d.collateralRatioBase

/-- Embedding of the default constructor `CUserCDP()` (cdpdb.h line 36).
Its initializer list sets `blockHeight`, `totalStakedBcoins`,
`totalOwedScoins` to zero; `ownerRegId` and `cdpTxId` are
default-constructed (empty); `collateralRatioBase` is NOT initialized, so
the indeterminate memory contents are passed in as `junk`. -/
def CUserCDP.mkDefault (junk : Dbl) : CUserCDP :=
  { collateralRatioBase := junk, ownerRegId := 0, cdpTxId := 0,
    blockHeight := 0, totalStakedBcoins := 0, totalOwedScoins := 0 }

/-- Embedding of the constructor `CUserCDP(regId, cdpTxIdIn)`
(cdpdb.h lines 38-39); again `collateralRatioBase` is left indeterminate. -/
def CUserCDP.mkWithId (junk : Dbl) (regId txId : Nat) : CUserCDP :=
  { collateralRatioBase := junk, ownerRegId := regId, cdpTxId := txId,
    blockHeight := 0, totalStakedBcoins := 0, totalOwedScoins := 0 }

/-- Embedding of `CUserCDP::IsEmpty()` (cdpdb.h lines 82-84):
`cdpTxId.IsEmpty()`, i.e. the transaction id is the zero hash. -/
def CUserCDP.isEmptyCdp (c : CUserCDP) : Bool := decide (c.cdpTxId = 0)

/-- Embedding of `CUserCDP::SetEmpty()` (cdpdb.h lines 86-91): resets
`cdpTxId`, `blockHeight`, `totalStakedBcoins`, `totalOwedScoins`; it does
not touch `collateralRatioBase` or `ownerRegId`. -/
def CUserCDP.setEmpty (c : CUserCDP) : CUserCDP :=
  { c with cdpTxId := 0, blockHeight := 0,
           totalStakedBcoins := 0, totalOwedScoins := 0 }

/-- The persisted wire content of a `CUserCDP` (cdpdb.h lines 52-61):
`ownerRegId`, `cdpTxId`, `VARINT(blockHeight)`, `VARINT(totalStakedBcoins)`,
`VARINT(totalOwedScoins)`.  The primitive encodings themselves are outside
the repository; the tuple of persisted fields is the faithful abstraction.
`collateralRatioBase` is never serialized. -/
structure SerCdp where
  serOwner : Nat
  serTxId : Nat
  serHeight : Int
  serStaked : Nat
  serOwed : Nat
deriving DecidableEq

/-- Serialization direction of `IMPLEMENT_SERIALIZE` (cdpdb.h lines 52-57):
write exactly the five persisted fields. -/
def serializeCdp (c : CUserCDP) : SerCdp :=
  { serOwner := c.ownerRegId, serTxId := c.cdpTxId,
    serHeight := c.blockHeight, serStaked := c.totalStakedBcoins,
    serOwed := c.totalOwedScoins }

/-- Deserialization direction of `IMPLEMENT_SERIALIZE` (cdpdb.h lines
52-61): read the five persisted fields, then (the `fRead` branch, line 59)
recompute `collateralRatioBase = double(totalStakedBcoins) /
totalOwedScoins`. -/
def deserializeCdp (s : SerCdp) : CUserCDP :=
  { collateralRatioBase := ratOf s.serStaked s.serOwed,
    ownerRegId := s.serOwner, cdpTxId := s.serTxId,
    blockHeight := s.serHeight, totalStakedBcoins := s.serStaked,
    totalOwedScoins := s.serOwed }

/-! ## Claims C6, C7, C8, C10 -/

/-- Claim C6 counterexample: the claim states that the decoded
`collateralRatioBase` is the infinite sentinel whenever
`totalOwedScoins == 0`.  For a record with zero staked coins and zero owed
coins the source's `double(0) / 0` is IEEE NaN, not infinity. -/
theorem c6_zero_zero_is_nan :
    (deserializeCdp (serializeCdp
      { collateralRatioBase := Dbl.val 0, ownerRegId := 1, cdpTxId := 2,
        blockHeight := 3, totalStakedBcoins := 0,
        totalOwedScoins := 0 })).totalOwedScoins = 0 ∧
    (deserializeCdp (serializeCdp
      { collateralRatioBase := Dbl.val 0, ownerRegId := 1, cdpTxId := 2,
        blockHeight := 3, totalStakedBcoins := 0,
        totalOwedScoins := 0 })).collateralRatioBase ≠ Dbl.inf := by
  constructor
  · rfl
  · intro h
    simp [deserializeCdp, serializeCdp, ratOf] at h

/-- Claim C6 (amended): encode-then-decode reproduces the five persisted
fields exactly, and the decoded `collateralRatioBase` is the exact
quotient when `totalOwedScoins > 0`, the infinite sentinel when
`totalOwedScoins = 0` and `totalStakedBcoins > 0`, and NaN when both are
zero; decoding is a total function, so zero debt never faults. -/
theorem c6_roundtrip (c : CUserCDP) :
    (deserializeCdp (serializeCdp c)).ownerRegId = c.ownerRegId ∧
    (deserializeCdp (serializeCdp c)).cdpTxId = c.cdpTxId ∧
    (deserializeCdp (serializeCdp c)).blockHeight = c.blockHeight ∧
    (deserializeCdp (serializeCdp c)).totalStakedBcoins
      = c.totalStakedBcoins ∧
    (deserializeCdp (serializeCdp c)).totalOwedScoins = c.totalOwedScoins ∧
    (deserializeCdp (serializeCdp c)).collateralRatioBase
      = (if c.totalOwedScoins = 0 then
           (if c.totalStakedBcoins = 0 then Dbl.nan else Dbl.inf)
         else Dbl.val ((c.totalStakedBcoins : ℚ) / (c.totalOwedScoins : ℚ)))
    := by
  refine ⟨rfl, rfl, rfl, rfl, rfl, ?_⟩
  simp [deserializeCdp, serializeCdp, ratOf, mkRat_cast_div]

/-- Claim C7 counterexample: two distinct records (they differ in
`totalStakedBcoins`) that agree on the whole composite key
`(collateralRatioBase, ownerRegId, cdpTxId)`; neither is `operator<` the
other, so the ordering is not total over distinct records. -/
theorem c7_not_total_on_records :
    (let r1 : CUserCDP :=
       { collateralRatioBase := Dbl.val 2, ownerRegId := 1, cdpTxId := 1,
         blockHeight := 0, totalStakedBcoins := 2, totalOwedScoins := 1 };
     let r2 : CUserCDP :=
       { collateralRatioBase := Dbl.val 2, ownerRegId := 1, cdpTxId := 1,
         blockHeight := 0, totalStakedBcoins := 4, totalOwedScoins := 2 };
     r1 ≠ r2 ∧ CUserCDP.ltb r1 r2 = false ∧ CUserCDP.ltb r2 r1 = false)
    := by
  refine ⟨?_, ?_, ?_⟩
  · intro h
    simp [CUserCDP.mk.injEq] at h
  · rfl
  · rfl

/-- Helper: when the ratio comparison reports equality, `operator<` is the
owner/txid tie-break. -/
theorem ltb_of_beq_true (c d : CUserCDP)
    (h : Dbl.beq c.collateralRatioBase d.collateralRatioBase = true) :
    CUserCDP.ltb c d
      = (if c.ownerRegId = d.ownerRegId then decide (c.cdpTxId < d.cdpTxId)
         else decide (c.ownerRegId < d.ownerRegId)) := by
  unfold CUserCDP.ltb
  rw [if_pos h]

/-- Helper: when the ratio comparison reports inequality, `operator<` is
the IEEE `<` of the ratios. -/
theorem ltb_of_beq_false (c d : CUserCDP)
    (h : Dbl.beq c.collateralRatioBase d.collateralRatioBase = false) :
    CUserCDP.ltb c d = Dbl.ltb c.collateralRatioBase d.collateralRatioBase
    := by
  unfold CUserCDP.ltb
  rw [if_neg (by simp [h])]

/-- Helper: the owner/txid tie-break is a strict total comparison on the
pair `(owner, txid)`. -/
theorem natTieBreak (o1 t1 o2 t2 : Nat) (h : ¬(o1 = o2 ∧ t1 = t2)) :
    ((if o1 = o2 then decide (t1 < t2) else decide (o1 < o2)) = true ∧
     (if o2 = o1 then decide (t2 < t1) else decide (o2 < o1)) = false) ∨
    ((if o1 = o2 then decide (t1 < t2) else decide (o1 < o2)) = false ∧
     (if o2 = o1 then decide (t2 < t1) else decide (o2 < o1)) = true) := by
  split_ifs with ha hb hb <;>
    simp only [decide_eq_true_eq, decide_eq_false_iff_not] <;> omega

/-- Claim C7 (amended): `operator<` compares by `collateralRatioBase`
first, breaking ties by `ownerRegId` and then `cdpTxId`; for two records
whose ratios are not NaN and whose composite keys
`(collateralRatioBase, ownerRegId, cdpTxId)` differ, exactly one of
`r1 < r2` and `r2 < r1` holds. -/
theorem c7_strict_order (r1 r2 : CUserCDP)
    (h1 : r1.collateralRatioBase ≠ Dbl.nan)
    (h2 : r2.collateralRatioBase ≠ Dbl.nan)
    (hk : ¬(r1.collateralRatioBase = r2.collateralRatioBase ∧
            r1.ownerRegId = r2.ownerRegId ∧ r1.cdpTxId = r2.cdpTxId)) :
    (CUserCDP.ltb r1 r2 = true ∧ CUserCDP.ltb r2 r1 = false) ∨
    (CUserCDP.ltb r1 r2 = false ∧ CUserCDP.ltb r2 r1 = true) := by
  rcases hr1 : r1.collateralRatioBase with _ | _ | a
  · exact absurd hr1 h1
  · rcases hr2 : r2.collateralRatioBase with _ | _ | b
    · exact absurd hr2 h2
    · -- both infinite: equal ratios, tie-break on owner then txid
      have hb1 : Dbl.beq r1.collateralRatioBase r2.collateralRatioBase
          = true := by
        rw [hr1, hr2]
        rfl
      have hb2 : Dbl.beq r2.collateralRatioBase r1.collateralRatioBase
          = true := by
        rw [hr1, hr2]
        rfl
      rw [ltb_of_beq_true r1 r2 hb1, ltb_of_beq_true r2 r1 hb2]
      refine natTieBreak _ _ _ _ (fun hc => hk ⟨?_, hc.1, hc.2⟩)
      rw [hr1, hr2]
    · -- r1 infinite, r2 finite: r2 < r1
      have hb1 : Dbl.beq r1.collateralRatioBase r2.collateralRatioBase
          = false := by
        rw [hr1, hr2]
        rfl
      have hb2 : Dbl.beq r2.collateralRatioBase r1.collateralRatioBase
          = false := by
        rw [hr1, hr2]
        rfl
      rw [ltb_of_beq_false r1 r2 hb1, ltb_of_beq_false r2 r1 hb2,
          hr1, hr2]
      right
      exact ⟨rfl, rfl⟩
  · rcases hr2 : r2.collateralRatioBase with _ | _ | b
    · exact absurd hr2 h2
    · -- r1 finite, r2 infinite: r1 < r2
      have hb1 : Dbl.beq r1.collateralRatioBase r2.collateralRatioBase
          = false := by
        rw [hr1, hr2]
        rfl
      have hb2 : Dbl.beq r2.collateralRatioBase r1.collateralRatioBase
          = false := by
        rw [hr1, hr2]
        rfl
      rw [ltb_of_beq_false r1 r2 hb1, ltb_of_beq_false r2 r1 hb2,
          hr1, hr2]
      left
      exact ⟨rfl, rfl⟩
    · -- both finite rationals
      rcases lt_trichotomy a b with h | h | h
      · have hb1 : Dbl.beq r1.collateralRatioBase r2.collateralRatioBase
            = false := by
          rw [hr1, hr2]
          simp [Dbl.beq, ne_of_lt h]
        have hb2 : Dbl.beq r2.collateralRatioBase r1.collateralRatioBase
            = false := by
          rw [hr1, hr2]
          simp [Dbl.beq, (ne_of_lt h).symm]
        rw [ltb_of_beq_false r1 r2 hb1, ltb_of_beq_false r2 r1 hb2,
            hr1, hr2]
        left
        constructor
        · simp [Dbl.ltb, h]
        · simp [Dbl.ltb, lt_asymm h]
      · subst h
        have hb1 : Dbl.beq r1.collateralRatioBase r2.collateralRatioBase
            = true := by
          rw [hr1, hr2]
          simp [Dbl.beq]
        have hb2 : Dbl.beq r2.collateralRatioBase r1.collateralRatioBase
            = true := by
          rw [hr1, hr2]
          simp [Dbl.beq]
        rw [ltb_of_beq_true r1 r2 hb1, ltb_of_beq_true r2 r1 hb2]
        refine natTieBreak _ _ _ _ (fun hc => hk ⟨?_, hc.1, hc.2⟩)
        rw [hr1, hr2]
      · have hb1 : Dbl.beq r1.collateralRatioBase r2.collateralRatioBase
            = false := by
          rw [hr1, hr2]
          simp [Dbl.beq, (ne_of_lt h).symm]
        have hb2 : Dbl.beq r2.collateralRatioBase r1.collateralRatioBase
            = false := by
          rw [hr1, hr2]
          simp [Dbl.beq, ne_of_lt h]
        rw [ltb_of_beq_false r1 r2 hb1, ltb_of_beq_false r2 r1 hb2,
            hr1, hr2]
        right
        constructor
        · simp [Dbl.ltb, lt_asymm h]
        · simp [Dbl.ltb, h]

/-- Witness for `c7_strict_order` at concrete records with distinct
owners. -/
theorem c7_strict_order_witness :
    (CUserCDP.ltb
       { collateralRatioBase := Dbl.val 2, ownerRegId := 1, cdpTxId := 1,
         blockHeight := 0, totalStakedBcoins := 2, totalOwedScoins := 1 }
       { collateralRatioBase := Dbl.val 3, ownerRegId := 2, cdpTxId := 1,
         blockHeight := 0, totalStakedBcoins := 3, totalOwedScoins := 1 }
      = true ∧
     CUserCDP.ltb
       { collateralRatioBase := Dbl.val 3, ownerRegId := 2, cdpTxId := 1,
         blockHeight := 0, totalStakedBcoins := 3, totalOwedScoins := 1 }
       { collateralRatioBase := Dbl.val 2, ownerRegId := 1, cdpTxId := 1,
         blockHeight := 0, totalStakedBcoins := 2, totalOwedScoins := 1 }
      = false) ∨
    (CUserCDP.ltb
       { collateralRatioBase := Dbl.val 2, ownerRegId := 1, cdpTxId := 1,
         blockHeight := 0, totalStakedBcoins := 2, totalOwedScoins := 1 }
       { collateralRatioBase := Dbl.val 3, ownerRegId := 2, cdpTxId := 1,
         blockHeight := 0, totalStakedBcoins := 3, totalOwedScoins := 1 }
      = false ∧
     CUserCDP.ltb
       { collateralRatioBase := Dbl.val 3, ownerRegId := 2, cdpTxId := 1,
         blockHeight := 0, totalStakedBcoins := 3, totalOwedScoins := 1 }
       { collateralRatioBase := Dbl.val 2, ownerRegId := 1, cdpTxId := 1,
         blockHeight := 0, totalStakedBcoins := 2, totalOwedScoins := 1 }
      = true) := by
  exact c7_strict_order _ _ (by decide) (by decide) (by decide)

/-- Claim C8 counterexample: a decoded record with zero staked AND zero
owed coins has NaN ratio, and NaN compares false, so it does not sort
after an indebted record — the claim fails for `totalStakedBcoins = 0`. -/
theorem c8_nan_breaks_sort :
    (let r1 := deserializeCdp
       { serOwner := 1, serTxId := 1, serHeight := 0,
         serStaked := 0, serOwed := 0 };
     let r2 := deserializeCdp
       { serOwner := 2, serTxId := 2, serHeight := 0,
         serStaked := 5, serOwed := 5 };
     r1.totalOwedScoins = 0 ∧ r2.totalOwedScoins > 0 ∧
     CUserCDP.ltb r2 r1 = false) := by
  exact ⟨rfl, by decide, rfl⟩

/-- Claim C8 (amended): for decoded records, if `r1.totalOwedScoins = 0`
and `r1.totalStakedBcoins > 0` (so its ratio is the infinite sentinel, not
NaN) and `r2.totalOwedScoins > 0`, then `r2 < r1` and not `r1 < r2`:
zero-debt records sort last, never ahead of indebted records. -/
theorem c8_zero_debt_sorts_last (s1 s2 : SerCdp)
    (h1 : s1.serOwed = 0) (h1s : 0 < s1.serStaked) (h2 : 0 < s2.serOwed) :
    CUserCDP.ltb (deserializeCdp s2) (deserializeCdp s1) = true ∧
    CUserCDP.ltb (deserializeCdp s1) (deserializeCdp s2) = false := by
  have e1 : (deserializeCdp s1).collateralRatioBase = Dbl.inf := by
    simp [deserializeCdp, ratOf, h1, Nat.pos_iff_ne_zero.mp h1s]
  have e2 : (deserializeCdp s2).collateralRatioBase
      = Dbl.val ((s2.serStaked : ℚ) / (s2.serOwed : ℚ)) := by
    simp [deserializeCdp, ratOf, mkRat_cast_div, Nat.pos_iff_ne_zero.mp h2]
  constructor
  · rw [CUserCDP.ltb, e1, e2]
    simp [Dbl.beq, Dbl.ltb]
  · rw [CUserCDP.ltb, e1, e2]
    simp [Dbl.beq, Dbl.ltb]

/-- Witness for `c8_zero_debt_sorts_last` at concrete wire records. -/
theorem c8_zero_debt_sorts_last_witness :
    CUserCDP.ltb
      (deserializeCdp { serOwner := 2, serTxId := 2, serHeight := 0,
                        serStaked := 5, serOwed := 5 })
      (deserializeCdp { serOwner := 1, serTxId := 1, serHeight := 0,
                        serStaked := 7, serOwed := 0 }) = true ∧
    CUserCDP.ltb
      (deserializeCdp { serOwner := 1, serTxId := 1, serHeight := 0,
                        serStaked := 7, serOwed := 0 })
      (deserializeCdp { serOwner := 2, serTxId := 2, serHeight := 0,
                        serStaked := 5, serOwed := 5 }) = false := by
  exact c8_zero_debt_sorts_last _ _ (by decide) (by decide) (by decide)

/-- Claim C10: neither `CUserCDP` constructor initializes
`collateralRatioBase` — whatever indeterminate value the memory held is
what `operator<` will read — and `SetEmpty` leaves both
`collateralRatioBase` and `ownerRegId` unchanged. -/
theorem c10_uninitialized_ratio_field (junk : Dbl) (regId txId : Nat)
    (c : CUserCDP) :
    (CUserCDP.mkDefault junk).collateralRatioBase = junk ∧
    (CUserCDP.mkWithId junk regId txId).collateralRatioBase = junk ∧
    (CUserCDP.setEmpty c).collateralRatioBase = c.collateralRatioBase ∧
    (CUserCDP.setEmpty c).ownerRegId = c.ownerRegId := by
  exact ⟨rfl, rfl, rfl, rfl⟩

/-! ## The ratio-ordered in-memory index (`CCdpMemCache`), as a layer chain

The bodies of `SaveCdp`, `EraseCdp`, `GetCdpListByCollateralRatio`,
`GetGlobalCollateral` and `Flush` are not in the repository snapshot
(declarations only, cdpdb.h lines 101-113).  They are modelled from the
specification.  A chain of layers is a list, most-descendant layer first;
the C++ `pBase` pointer chain becomes the tail of the list.  Each layer is
the header's `map<CUserCDP, uint8_t> cdps` — keyed by the composite key
`(collateralRatioBase, ownerRegId, cdpTxId)` that `operator<` compares —
plus the running aggregates `totalStakedBcoins` / `totalOwedScoins`
(cdpdb.h lines 122-124).  The flag byte (0: valid; 1: invalid) is a
`Bool`: `true` = valid/Present, `false` = invalid/Tombstoned. -/

/-- 2^64: `totalStakedBcoins` and `totalOwedScoins` are `uint64_t`, so all
aggregate arithmetic is modulo this. -/
def u64Mod : Nat := 18446744073709551616

/-- The composite key `operator<` compares:
`(collateralRatioBase, ownerRegId, cdpTxId)`. -/
abbrev CdpKey := Dbl × Nat × Nat

/-- Composite map key of a record. -/
def cdpKey (r : CUserCDP) : CdpKey := (r.collateralRatioBase, r.ownerRegId, r.cdpTxId)

/-- First-match association-list lookup; later writes are consed to the
front, so the front entry for a key is the current one. -/
def lookupL {κ α : Type} [DecidableEq κ] : List (κ × α) → κ → Option α
  | [], _ => none
  | (k, v) :: t, k2 => if k2 = k then some v else lookupL t k2

/-- One `CCdpMemCache` layer: the keyed entry map and this layer's running
aggregates (cdpdb.h lines 122-124). -/
structure CdpMemLayer where
  cdps : List (CdpKey × (CUserCDP × Bool))
  totalStakedBcoins : Nat
  totalOwedScoins : Nat
deriving DecidableEq

/-- A freshly constructed layer: empty map, zero aggregates (the in-class
initializers, cdpdb.h lines 122-124). -/
def emptyMemLayer : CdpMemLayer := { cdps := [], totalStakedBcoins := 0, totalOwedScoins := 0 }

/-- Modelled from the spec (`RangeByRatioUpperBound`, merged view): the
decision for a key is made by the nearest (most-descendant) layer that
mentions it; ancestors are consulted only for keys undecided by all
descendants. -/
def chainDecision : List CdpMemLayer → CdpKey → Option (CUserCDP × Bool)
  | [], _ => none
  | l :: rest, k =>
    match lookupL l.cdps k with
    | some e => some e
    | none => chainDecision rest k

/-- Modelled from the spec: `CCdpMemCache::SaveCdp` (declared cdpdb.h line
106, body missing) — insert/overwrite the entry at the record's composite
key as Present in the active (head) layer and add the record's totals to
this layer's running aggregates (64-bit wrap-around). -/
def memSaveChain : List CdpMemLayer → CUserCDP → List CdpMemLayer
  | [], _ => []
  | hd :: tl, r =>
    { cdps := (cdpKey r, (r, true)) :: hd.cdps,
      totalStakedBcoins := (hd.totalStakedBcoins + r.totalStakedBcoins) % u64Mod,
      totalOwedScoins := (hd.totalOwedScoins + r.totalOwedScoins) % u64Mod } :: tl

/-- Modelled from the spec: `CCdpMemCache::EraseCdp` (declared cdpdb.h
line 107, body missing) — write a tombstone at the record's composite key
in the active layer, masking any ancestor entry, and subtract the
record's totals from this layer's aggregates (64-bit wrap-around) when
the merged chain decision for that key was Present; erasing an
already-tombstoned key is a no-op on the aggregates, giving the
idempotence the spec requires.  (The subtraction is keyed on the merged
chain decision: the spec asserts that the per-layer aggregates are net of
this layer's tombstones so that summing layers never double counts, which
forces the masking tombstone of an ancestor's Present entry to subtract
here.) -/
def presentFlag (c : List CdpMemLayer) (k : CdpKey) : Bool :=
  match chainDecision c k with
  | some (_, true) => true
  | _ => false

/-- Modelled from the spec: `CCdpMemCache::EraseCdp` (see `presentFlag`
above for the subtraction condition). -/
def memEraseChain (c : List CdpMemLayer) (r : CUserCDP) : List CdpMemLayer :=
  match c with
  | [] => []
  | hd :: tl =>
    let present : Bool := presentFlag (hd :: tl) (cdpKey r)
    { cdps := (cdpKey r, (r, false)) :: hd.cdps,
      totalStakedBcoins :=
        if present then
          (hd.totalStakedBcoins + (u64Mod - r.totalStakedBcoins % u64Mod)) % u64Mod
        else hd.totalStakedBcoins,
      totalOwedScoins :=
        if present then
          (hd.totalOwedScoins + (u64Mod - r.totalOwedScoins % u64Mod)) % u64Mod
        else hd.totalOwedScoins } :: tl

/-- Sum of the per-layer staked aggregates over the chain. -/
def aggStaked (c : List CdpMemLayer) : Nat :=
  (c.map CdpMemLayer.totalStakedBcoins).sum

/-- Modelled from the spec: `CCdpMemCache::GetGlobalCollateral` (declared
cdpdb.h line 113, body missing) — aggregate by walking the layer chain
summing each layer's own staked total; the result is a `uint64_t`. -/
def getGlobalCollateral (c : List CdpMemLayer) : Nat := aggStaked c % u64Mod

/-- Modelled from the spec: the price-relative inclusive ratio filter of
`GetCdpListByCollateralRatio` — keep a record when its price-adjusted
ratio is at most the threshold; a zero-debt (infinite-ratio) record never
passes a finite threshold. -/
def ratLeB (r : CUserCDP) (t p : Nat) : Bool :=
  if r.totalOwedScoins = 0 then false
  else decide (r.totalStakedBcoins * p ≤ t * r.totalOwedScoins)

/-- All keys mentioned anywhere in the chain. -/
def chainKeys : List CdpMemLayer → List CdpKey
  | [] => []
  | l :: rest => l.cdps.map Prod.fst ++ chainKeys rest

/-- Modelled from the spec: `CCdpMemCache::GetCdpListByCollateralRatio`
(declared cdpdb.h lines 109-110, body missing) — the records whose merged
chain decision is Present and whose price-adjusted ratio passes the
threshold; tombstoned-by-a-descendant identities are excluded. -/
def candidatesBelow (c : List CdpMemLayer) (t p : Nat) : List CUserCDP :=
  (chainKeys c).filterMap (fun k =>
    match chainDecision c k with
    | some (r, true) => if ratLeB r t p then some r else none
    | _ => none)

/-- Helper: a successful lookup means the key-value pair is an entry of
the list. -/
theorem lookupL_some_mem {κ α : Type} [DecidableEq κ]
    (l : List (κ × α)) (k : κ) (v : α) (h : lookupL l k = some v) :
    (k, v) ∈ l := by
  induction l with
  | nil => cases h
  | cons e t ih =>
    obtain ⟨k1, v1⟩ := e
    by_cases hk : k = k1
    · subst hk
      simp [lookupL] at h
      subst h
      exact List.mem_cons_self _ _
    · simp [lookupL, hk] at h
      exact List.mem_cons_of_mem _ (ih h)

/-- Helper: a successful lookup means the key occurs among the entry
keys. -/
theorem lookupL_some_mem_keys {κ α : Type} [DecidableEq κ]
    (l : List (κ × α)) (k : κ) (v : α) (h : lookupL l k = some v) :
    k ∈ l.map Prod.fst := by
  have := lookupL_some_mem l k v h
  exact List.mem_map.mpr ⟨(k, v), this, rfl⟩

/-- Helper: a merged decision comes from an entry of some layer of the
chain. -/
theorem chainDecision_entry (c : List CdpMemLayer) (k : CdpKey)
    (e : CUserCDP × Bool) (h : chainDecision c k = some e) :
    ∃ l, l ∈ c ∧ (k, e) ∈ l.cdps := by
  induction c with
  | nil => cases h
  | cons hd tl ih =>
    rw [chainDecision] at h
    cases hl : lookupL hd.cdps k with
    | some e2 =>
      rw [hl] at h
      cases h
      exact ⟨hd, List.mem_cons_self _ _, lookupL_some_mem _ _ _ hl⟩
    | none =>
      rw [hl] at h
      obtain ⟨l, hlm, hme⟩ := ih h
      exact ⟨l, List.mem_cons_of_mem _ hlm, hme⟩

/-- Helper: a decided key occurs in `chainKeys`. -/
theorem chainDecision_mem_keys (c : List CdpMemLayer) (k : CdpKey)
    (e : CUserCDP × Bool) (h : chainDecision c k = some e) :
    k ∈ chainKeys c := by
  induction c with
  | nil => cases h
  | cons hd tl ih =>
    rw [chainDecision] at h
    rw [chainKeys, List.mem_append]
    cases hl : lookupL hd.cdps k with
    | some e2 => exact Or.inl (lookupL_some_mem_keys _ _ _ hl)
    | none =>
      rw [hl] at h
      exact Or.inr (ih h)

/-- Helper: membership in a candidate list is exactly a Present merged
decision passing the ratio filter. -/
theorem mem_candidatesBelow (c : List CdpMemLayer) (t p : Nat)
    (rec : CUserCDP) :
    rec ∈ candidatesBelow c t p ↔
      ∃ k, chainDecision c k = some (rec, true) ∧ ratLeB rec t p = true := by
  constructor
  · intro h
    unfold candidatesBelow at h
    rw [List.mem_filterMap] at h
    obtain ⟨k, _, he⟩ := h
    refine ⟨k, ?_⟩
    cases hd : chainDecision c k with
    | none =>
      rw [hd] at he
      cases he
    | some e =>
      obtain ⟨r2, f⟩ := e
      rw [hd] at he
      cases f with
      | false => cases he
      | true =>
        simp only at he
        by_cases hle : ratLeB r2 t p = true
        · rw [if_pos hle] at he
          cases he
          exact ⟨rfl, hle⟩
        · rw [if_neg hle] at he
          cases he
  · intro ⟨k, hd, hle⟩
    unfold candidatesBelow
    rw [List.mem_filterMap]
    refine ⟨k, chainDecision_mem_keys c k _ hd, ?_⟩
    rw [hd]
    simp [hle]

/-- Helper: after `EraseCdp(r)` the merged decision at `r`'s key is the
tombstone. -/
theorem chainDecision_erase_self (head : CdpMemLayer)
    (rest : List CdpMemLayer) (r : CUserCDP) :
    chainDecision (memEraseChain (head :: rest) r) (cdpKey r)
      = some (r, false) := by
  simp [memEraseChain, chainDecision, lookupL]

/-- Helper: entries of the chain after an erase are the new tombstone or
entries of the original chain. -/
theorem memEraseChain_entries (head : CdpMemLayer) (rest : List CdpMemLayer)
    (r : CUserCDP) (l : CdpMemLayer)
    (hl : l ∈ memEraseChain (head :: rest) r)
    (e : CdpKey × (CUserCDP × Bool)) (he : e ∈ l.cdps) :
    e = (cdpKey r, (r, false)) ∨ ∃ l2, l2 ∈ head :: rest ∧ e ∈ l2.cdps := by
  simp only [memEraseChain] at hl
  rcases List.mem_cons.mp hl with rfl | hl
  · rcases List.mem_cons.mp he with rfl | he
    · exact Or.inl rfl
    · exact Or.inr ⟨head, List.mem_cons_self _ _, he⟩
  · exact Or.inr ⟨l, List.mem_cons_of_mem _ hl, he⟩

/-! ## Claim C3 -/

/-- Claim C3 counterexample: the claim quantifies over every layer chain
in which an ancestor holds `r` Present.  In a chain whose descendant layer
additionally holds a Present entry with `r`'s identity under a different
ratio key (the stale-entry state the spec's erase-before-save precondition
is meant to rule out), `EraseCdp(r)` tombstones only `r`'s own key, and
the query still returns a record with `r`'s identity. -/
theorem c3_stale_duplicate_identity :
    (let r : CUserCDP := ⟨Dbl.val 2, 1, 7, 0, 2, 1⟩
     let q : CUserCDP := ⟨Dbl.val 3, 1, 7, 0, 3, 1⟩
     let chain : List CdpMemLayer :=
       [⟨[(cdpKey q, (q, true))], 3, 1⟩, ⟨[(cdpKey r, (r, true))], 2, 1⟩]
     lookupL (⟨[(cdpKey r, (r, true))], 2, 1⟩ : CdpMemLayer).cdps (cdpKey r)
        = some (r, true) ∧
     q ∈ candidatesBelow (memEraseChain chain r) 100 1 ∧
     q.ownerRegId = r.ownerRegId ∧ q.cdpTxId = r.cdpTxId) := by
  decide

/-- Claim C3 (amended): if an ancestor layer holds `r` Present and no
layer of the chain holds an entry with `r`'s identity under any other key,
then after `EraseCdp(r)` on the descendant, no
`GetCdpListByCollateralRatio` query on the resulting chain state returns a
record with `r`'s identity, for any threshold and price (tombstone
masking). -/
theorem c3_tombstone_masks (head : CdpMemLayer) (rest : List CdpMemLayer)
    (r : CUserCDP)
    (_hanc : ∃ l ∈ rest, lookupL l.cdps (cdpKey r) = some (r, true))
    (huniq : ∀ l ∈ head :: rest, ∀ e ∈ l.cdps,
      e.2.1.ownerRegId = r.ownerRegId → e.2.1.cdpTxId = r.cdpTxId →
      e.1 = cdpKey r) :
    ∀ t p rec, rec ∈ candidatesBelow (memEraseChain (head :: rest) r) t p →
      ¬(rec.ownerRegId = r.ownerRegId ∧ rec.cdpTxId = r.cdpTxId) := by
  intro t p rec hmem hid
  obtain ⟨ho, ht⟩ := hid
  obtain ⟨k, hdec, _⟩ := (mem_candidatesBelow _ _ _ _).mp hmem
  obtain ⟨l, hl, hentry⟩ := chainDecision_entry _ _ _ hdec
  have hk : k = cdpKey r := by
    rcases memEraseChain_entries head rest r l hl (k, (rec, true)) hentry
      with he | ⟨l2, hl2, he2⟩
    · simp at he
    · exact huniq l2 hl2 (k, (rec, true)) he2 ho ht
  rw [hk, chainDecision_erase_self head rest r] at hdec
  simp at hdec

/-- Witness for `c3_tombstone_masks`: a two-layer chain whose ancestor
holds the erased record and an unrelated record; the query after the
erase may only return the unrelated identity. -/
theorem c3_tombstone_masks_witness :
    ¬((⟨Dbl.val 5, 2, 9, 0, 5, 1⟩ : CUserCDP).ownerRegId
        = (⟨Dbl.val 2, 1, 7, 0, 2, 1⟩ : CUserCDP).ownerRegId ∧
      (⟨Dbl.val 5, 2, 9, 0, 5, 1⟩ : CUserCDP).cdpTxId
        = (⟨Dbl.val 2, 1, 7, 0, 2, 1⟩ : CUserCDP).cdpTxId) :=
  c3_tombstone_masks ⟨[], 0, 0⟩
    [⟨[(cdpKey ⟨Dbl.val 2, 1, 7, 0, 2, 1⟩, (⟨Dbl.val 2, 1, 7, 0, 2, 1⟩, true)),
       (cdpKey ⟨Dbl.val 5, 2, 9, 0, 5, 1⟩, (⟨Dbl.val 5, 2, 9, 0, 5, 1⟩, true))],
      7, 2⟩]
    ⟨Dbl.val 2, 1, 7, 0, 2, 1⟩ (by decide) (by decide) 10 1
    ⟨Dbl.val 5, 2, 9, 0, 5, 1⟩ (by decide)

/-! ## Claim C1: global collateral vs. the merged Present view -/

/-- Contribution of one key to the merged-Present staked sum: the decided
record's staked total when the nearest decision is Present, else zero. -/
def presentContrib (c : List CdpMemLayer) (k : CdpKey) : Nat :=
  match chainDecision c k with
  | some (r, true) => r.totalStakedBcoins
  | _ => 0

/-- Sum of `totalStakedBcoins` over the identities whose merged (nearest
descendant) decision is Present — each key counted once. -/
def presentStakedSum (c : List CdpMemLayer) : Nat :=
  ∑ k ∈ (chainKeys c).toFinset, presentContrib c k

/-- No two distinct keys of the merged view are Present with the same
identity (owner, cdp id): the formal reading of "no identity counted
twice". -/
def distinctIds (c : List CdpMemLayer) : Prop :=
  ∀ k1 k2 r1 r2, chainDecision c k1 = some (r1, true) →
    chainDecision c k2 = some (r2, true) →
    r1.ownerRegId = r2.ownerRegId → r1.cdpTxId = r2.cdpTxId → k1 = k2

/-- Every stored entry is keyed by the composite key of the record it
holds (true of every state the operations can build). -/
def entriesConsistent (c : List CdpMemLayer) : Prop :=
  ∀ l ∈ c, ∀ e ∈ l.cdps, e.1 = cdpKey e.2.1

/-- The operations of claim C1 over a chain of `CCdpMemCache` layers:
`SaveCdp`, `EraseCdp`, the index effect of `StakeBcoinsToCdp`, and
opening a fresh descendant layer. -/
inductive MemOp where
  | push : MemOp
  | save : CUserCDP → MemOp
  | erase : CUserCDP → MemOp
  | stake : Int → Nat → Nat → CUserCDP → MemOp

/-- Modelled from the spec: apply one operation to the active (head)
layer of the chain.  `stake` on an empty-sentinel record creates a fresh
record; on an existing record it fails (leaving the chain unchanged) when
a 64-bit total would overflow, and otherwise erases the entry under the
old ratio and saves the updated record under the new ratio. -/
def applyMemOp (c : List CdpMemLayer) : MemOp → List CdpMemLayer
  | .push => emptyMemLayer :: c
  | .save r => memSaveChain c r
  | .erase r => memEraseChain c r
  | .stake h s m cdp =>
    if cdp.isEmptyCdp then
      memSaveChain c ⟨ratOf s m, cdp.ownerRegId, cdp.cdpTxId, h, s, m⟩
    else if u64Mod ≤ cdp.totalStakedBcoins + s ∨ u64Mod ≤ cdp.totalOwedScoins + m
    then c
    else
      memSaveChain (memEraseChain c cdp)
        ⟨ratOf (cdp.totalStakedBcoins + s) (cdp.totalOwedScoins + m),
         cdp.ownerRegId, cdp.cdpTxId, h,
         cdp.totalStakedBcoins + s, cdp.totalOwedScoins + m⟩

/-- Apply a sequence of operations. -/
def applyMemOps (c : List CdpMemLayer) : List MemOp → List CdpMemLayer
  | [] => c
  | op :: rest => applyMemOps (applyMemOp c op) rest

/-- No Present merged decision carries the given identity. -/
def noPresentId (c : List CdpMemLayer) (owner txid : Nat) : Bool :=
  (chainKeys c).all (fun k =>
    match chainDecision c k with
    | some (rec, true) =>
      !(decide (rec.ownerRegId = owner) && decide (rec.cdpTxId = txid))
    | _ => true)

/-- The erase-before-save discipline of the spec, per operation: a save
(or fresh stake) requires that no chain entry with that identity is
currently decided Present, and an erase (or updating stake) passes
exactly the record the chain currently decides Present. -/
def disciplinedStep (c : List CdpMemLayer) : MemOp → Bool
  | .push => true
  | .save r => noPresentId c r.ownerRegId r.cdpTxId
  | .erase r => decide (chainDecision c (cdpKey r) = some (r, true))
  | .stake _ _ _ cdp =>
    if cdp.isEmptyCdp then noPresentId c cdp.ownerRegId cdp.cdpTxId
    else decide (chainDecision c (cdpKey cdp) = some (cdp, true))

/-- A whole sequence is disciplined from a starting chain. -/
def disciplinedOps (c : List CdpMemLayer) : List MemOp → Bool
  | [] => true
  | op :: rest => disciplinedStep c op && disciplinedOps (applyMemOp c op) rest

/-- Helper: an empty head layer is transparent to the merged view. -/
theorem chainDecision_push (c : List CdpMemLayer) (k : CdpKey) :
    chainDecision (emptyMemLayer :: c) k = chainDecision c k := rfl

/-- Helper: the merged view after `SaveCdp` decides the saved key Present
and leaves every other key unchanged. -/
theorem chainDecision_save (c : List CdpMemLayer) (r : CUserCDP)
    (hne : c ≠ []) (k : CdpKey) :
    chainDecision (memSaveChain c r) k
      = if k = cdpKey r then some (r, true) else chainDecision c k := by
  cases c with
  | nil => exact absurd rfl hne
  | cons hd tl =>
    by_cases hk : k = cdpKey r
    · simp [memSaveChain, chainDecision, lookupL, hk]
    · simp [memSaveChain, chainDecision, lookupL, hk]

/-- Helper: the merged view after `EraseCdp` decides the erased key
Tombstoned and leaves every other key unchanged. -/
theorem chainDecision_erase (c : List CdpMemLayer) (r : CUserCDP)
    (hne : c ≠ []) (k : CdpKey) :
    chainDecision (memEraseChain c r) k
      = if k = cdpKey r then some (r, false) else chainDecision c k := by
  cases c with
  | nil => exact absurd rfl hne
  | cons hd tl =>
    by_cases hk : k = cdpKey r
    · simp [memEraseChain, chainDecision, lookupL, hk]
    · simp [memEraseChain, chainDecision, lookupL, hk]

/-- Helper: keys after a save. -/
theorem chainKeys_save (c : List CdpMemLayer) (r : CUserCDP) (hne : c ≠ []) :
    chainKeys (memSaveChain c r) = cdpKey r :: chainKeys c := by
  cases c with
  | nil => exact absurd rfl hne
  | cons hd tl => simp [memSaveChain, chainKeys]

/-- Helper: keys after an erase. -/
theorem chainKeys_erase (c : List CdpMemLayer) (r : CUserCDP) (hne : c ≠ []) :
    chainKeys (memEraseChain c r) = cdpKey r :: chainKeys c := by
  cases c with
  | nil => exact absurd rfl hne
  | cons hd tl => simp [memEraseChain, chainKeys]

/-- Helper: aggregate change of a save, modulo 2^64. -/
theorem aggStaked_save_mod (c : List CdpMemLayer) (r : CUserCDP)
    (hne : c ≠ []) :
    aggStaked (memSaveChain c r) % u64Mod
      = (aggStaked c + r.totalStakedBcoins) % u64Mod := by
  cases c with
  | nil => exact absurd rfl hne
  | cons hd tl =>
    simp only [memSaveChain, aggStaked, List.map_cons, List.sum_cons, u64Mod]
    omega

/-- Helper: aggregate change of an erase whose key the chain decided
Present, modulo 2^64. -/
theorem aggStaked_erase_mod (c : List CdpMemLayer) (r : CUserCDP)
    (hne : c ≠ []) (hp : presentFlag c (cdpKey r) = true) :
    aggStaked (memEraseChain c r) % u64Mod
      = (aggStaked c + (u64Mod - r.totalStakedBcoins % u64Mod)) % u64Mod := by
  cases c with
  | nil => exact absurd rfl hne
  | cons hd tl =>
    simp only [memEraseChain, aggStaked, List.map_cons, List.sum_cons, hp,
      if_true, u64Mod]
    omega

/-- Helper: pushing an empty layer changes neither the key set nor any
contribution. -/
theorem presentSum_push (c : List CdpMemLayer) :
    presentStakedSum (emptyMemLayer :: c) = presentStakedSum c := rfl

/-- Helper: a save whose key contributed nothing adds exactly the saved
record's staked total to the merged-Present sum. -/
theorem presentSum_save (c : List CdpMemLayer) (r : CUserCDP)
    (hne : c ≠ []) (hz : presentContrib c (cdpKey r) = 0) :
    presentStakedSum (memSaveChain c r)
      = r.totalStakedBcoins + presentStakedSum c := by
  have hck := chainKeys_save c r hne
  have hdec := chainDecision_save c r hne
  unfold presentStakedSum
  rw [hck, List.toFinset_cons]
  have hmem : cdpKey r ∈ insert (cdpKey r) (chainKeys c).toFinset :=
    Finset.mem_insert_self _ _
  rw [← Finset.add_sum_erase _ _ hmem]
  have h1 : presentContrib (memSaveChain c r) (cdpKey r)
      = r.totalStakedBcoins := by
    unfold presentContrib
    rw [hdec (cdpKey r), if_pos rfl]
  rw [h1]
  congr 1
  have he : (insert (cdpKey r) (chainKeys c).toFinset).erase (cdpKey r)
      = (chainKeys c).toFinset.erase (cdpKey r) := by
    ext x
    simp only [Finset.mem_erase, Finset.mem_insert]
    tauto
  rw [he]
  have h2 : ∑ x ∈ (chainKeys c).toFinset.erase (cdpKey r),
      presentContrib (memSaveChain c r) x
      = ∑ x ∈ (chainKeys c).toFinset.erase (cdpKey r), presentContrib c x := by
    refine Finset.sum_congr rfl (fun x hx => ?_)
    have hxne : x ≠ cdpKey r := (Finset.mem_erase.mp hx).1
    unfold presentContrib
    rw [hdec x, if_neg hxne]
  rw [h2, Finset.sum_erase _ hz]

/-- Helper: an erase of a record the chain decided Present removes exactly
its staked total from the merged-Present sum. -/
theorem presentSum_erase (c : List CdpMemLayer) (r : CUserCDP)
    (hne : c ≠ []) (hp : chainDecision c (cdpKey r) = some (r, true)) :
    presentStakedSum c
      = r.totalStakedBcoins + presentStakedSum (memEraseChain c r) := by
  have hck := chainKeys_erase c r hne
  have hdec := chainDecision_erase c r hne
  have hkmem : cdpKey r ∈ (chainKeys c).toFinset :=
    List.mem_toFinset.mpr (chainDecision_mem_keys c _ _ hp)
  unfold presentStakedSum
  rw [hck, List.toFinset_cons]
  rw [← Finset.add_sum_erase _ (presentContrib c) hkmem]
  have h1 : presentContrib c (cdpKey r) = r.totalStakedBcoins := by
    unfold presentContrib
    rw [hp]
  rw [h1]
  congr 1
  have hz : presentContrib (memEraseChain c r) (cdpKey r) = 0 := by
    unfold presentContrib
    rw [hdec (cdpKey r), if_pos rfl]
  rw [← Finset.sum_erase (insert (cdpKey r) (chainKeys c).toFinset) hz]
  have he : (insert (cdpKey r) (chainKeys c).toFinset).erase (cdpKey r)
      = (chainKeys c).toFinset.erase (cdpKey r) := by
    ext x
    simp only [Finset.mem_erase, Finset.mem_insert]
    tauto
  rw [he]
  refine Finset.sum_congr rfl (fun x hx => ?_)
  have hxne : x ≠ cdpKey r := (Finset.mem_erase.mp hx).1
  unfold presentContrib
  rw [hdec x, if_neg hxne]

/-- Helper: in a consistent chain, a decided key is the composite key of
the decided record. -/
theorem decision_key (c : List CdpMemLayer) (k : CdpKey) (rec : CUserCDP)
    (f : Bool) (hc : entriesConsistent c)
    (hd : chainDecision c k = some (rec, f)) : k = cdpKey rec := by
  obtain ⟨l, hl, he⟩ := chainDecision_entry c k _ hd
  exact hc l hl (k, (rec, f)) he

/-- Helper: unpacking `noPresentId`. -/
theorem noPresentId_spec (c : List CdpMemLayer) (o t : Nat)
    (h : noPresentId c o t = true) :
    ∀ k rec, chainDecision c k = some (rec, true) →
      ¬(rec.ownerRegId = o ∧ rec.cdpTxId = t) := by
  intro k rec hd hid
  obtain ⟨ho, ht⟩ := hid
  have hk := chainDecision_mem_keys c k _ hd
  have h2 := List.all_eq_true.mp h k hk
  rw [hd] at h2
  simp [ho, ht] at h2

/-- Helper: packing `noPresentId`. -/
theorem noPresentId_of (c : List CdpMemLayer) (o t : Nat)
    (h : ∀ k rec, chainDecision c k = some (rec, true) →
      ¬(rec.ownerRegId = o ∧ rec.cdpTxId = t)) :
    noPresentId c o t = true := by
  rw [noPresentId, List.all_eq_true]
  intro k hk
  cases hd : chainDecision c k with
  | none => simp
  | some e =>
    obtain ⟨rec, f⟩ := e
    cases f with
    | false => simp
    | true =>
      have h2 := h k rec hd
      simp only [Bool.not_eq_eq_eq_not, Bool.not_true, Bool.and_eq_false_iff]
      by_cases ho : rec.ownerRegId = o
      · right
        simp only [decide_eq_false_iff_not]
        intro ht
        exact h2 ⟨ho, ht⟩
      · left
        simp [ho]

/-- The inductive invariant for claim C1: nonempty chain, consistent
entry keys, no identity Present twice, and the layer-aggregate sum agrees
with the merged-Present sum modulo 2^64. -/
def memInv (c : List CdpMemLayer) : Prop :=
  c ≠ [] ∧ entriesConsistent c ∧ distinctIds c ∧
    aggStaked c % u64Mod = presentStakedSum c % u64Mod

/-- Helper: a disciplined save preserves the invariant. -/
theorem memInv_save (c : List CdpMemLayer) (r : CUserCDP)
    (hInv : memInv c)
    (hnp : noPresentId c r.ownerRegId r.cdpTxId = true) :
    memInv (memSaveChain c r) := by
  obtain ⟨hne, hcons, hdist, hagg⟩ := hInv
  have hspec := noPresentId_spec c _ _ hnp
  have hz : presentContrib c (cdpKey r) = 0 := by
    unfold presentContrib
    cases hd : chainDecision c (cdpKey r) with
    | none => rfl
    | some e =>
      obtain ⟨rec, f⟩ := e
      cases f with
      | false => rfl
      | true =>
        exfalso
        have hk := decision_key c _ _ _ hcons hd
        have hkk : rec.ownerRegId = r.ownerRegId ∧ rec.cdpTxId = r.cdpTxId := by
          simp only [cdpKey, Prod.mk.injEq] at hk
          exact ⟨hk.2.1.symm, hk.2.2.symm⟩
        exact hspec _ _ hd hkk
  refine ⟨?_, ?_, ?_, ?_⟩
  · cases c with
    | nil => exact absurd rfl hne
    | cons hd tl => simp [memSaveChain]
  · cases c with
    | nil => exact absurd rfl hne
    | cons hd tl =>
      intro l hl e he
      simp only [memSaveChain] at hl
      rcases List.mem_cons.mp hl with rfl | hl2
      · rcases List.mem_cons.mp he with rfl | he2
        · rfl
        · exact hcons hd (List.mem_cons_self _ _) e he2
      · exact hcons l (List.mem_cons_of_mem _ hl2) e he
  · intro k1 k2 r1 r2 h1 h2 ho ht
    rw [chainDecision_save c r hne] at h1 h2
    by_cases hk1 : k1 = cdpKey r <;> by_cases hk2 : k2 = cdpKey r
    · rw [hk1, hk2]
    · exfalso
      rw [if_pos hk1] at h1
      rw [if_neg hk2] at h2
      cases h1
      exact hspec k2 r2 h2 ⟨ho.symm, ht.symm⟩
    · exfalso
      rw [if_neg hk1] at h1
      rw [if_pos hk2] at h2
      cases h2
      exact hspec k1 r1 h1 ⟨ho, ht⟩
    · rw [if_neg hk1] at h1
      rw [if_neg hk2] at h2
      exact hdist k1 k2 r1 r2 h1 h2 ho ht
  · rw [aggStaked_save_mod c r hne, presentSum_save c r hne hz]
    simp only [u64Mod] at hagg ⊢
    omega

/-- Helper: a disciplined erase preserves the invariant. -/
theorem memInv_erase (c : List CdpMemLayer) (r : CUserCDP)
    (hInv : memInv c)
    (hp : chainDecision c (cdpKey r) = some (r, true)) :
    memInv (memEraseChain c r) := by
  obtain ⟨hne, hcons, hdist, hagg⟩ := hInv
  have hflag : presentFlag c (cdpKey r) = true := by
    unfold presentFlag
    rw [hp]
  refine ⟨?_, ?_, ?_, ?_⟩
  · cases c with
    | nil => exact absurd rfl hne
    | cons hd tl => simp [memEraseChain]
  · cases c with
    | nil => exact absurd rfl hne
    | cons hd tl =>
      intro l hl e he
      simp only [memEraseChain] at hl
      rcases List.mem_cons.mp hl with rfl | hl2
      · rcases List.mem_cons.mp he with rfl | he2
        · rfl
        · exact hcons hd (List.mem_cons_self _ _) e he2
      · exact hcons l (List.mem_cons_of_mem _ hl2) e he
  · intro k1 k2 r1 r2 h1 h2 ho ht
    rw [chainDecision_erase c r hne] at h1 h2
    by_cases hk1 : k1 = cdpKey r <;> by_cases hk2 : k2 = cdpKey r
    · rw [hk1, hk2]
    · rw [if_pos hk1] at h1
      cases h1
    · rw [if_pos hk2] at h2
      cases h2
    · rw [if_neg hk1] at h1
      rw [if_neg hk2] at h2
      exact hdist k1 k2 r1 r2 h1 h2 ho ht
  · have hps := presentSum_erase c r hne hp
    rw [aggStaked_erase_mod c r hne hflag]
    rw [hps] at hagg
    simp only [u64Mod] at hagg ⊢
    omega

/-- Helper: one disciplined operation preserves the invariant. -/
theorem memInv_step (c : List CdpMemLayer) (op : MemOp) (hInv : memInv c)
    (hd : disciplinedStep c op = true) : memInv (applyMemOp c op) := by
  cases op with
  | push =>
    obtain ⟨hne, hcons, hdist, hagg⟩ := hInv
    simp only [applyMemOp]
    refine ⟨by simp, ?_, ?_, ?_⟩
    · intro l hl e he
      rcases List.mem_cons.mp hl with rfl | hl2
      · simp [emptyMemLayer] at he
      · exact hcons l hl2 e he
    · intro k1 k2 r1 r2 h1 h2 ho ht
      rw [chainDecision_push] at h1 h2
      exact hdist k1 k2 r1 r2 h1 h2 ho ht
    · rw [presentSum_push]
      have h3 : aggStaked (emptyMemLayer :: c) = aggStaked c := by
        simp [aggStaked, emptyMemLayer]
      rw [h3, hagg]
  | save r =>
    simp only [disciplinedStep] at hd
    exact memInv_save c r hInv hd
  | erase r =>
    simp only [disciplinedStep, decide_eq_true_eq] at hd
    exact memInv_erase c r hInv hd
  | stake h s m cdp =>
    simp only [applyMemOp, disciplinedStep] at hd ⊢
    by_cases hemp : cdp.isEmptyCdp = true
    · rw [if_pos hemp] at hd ⊢
      exact memInv_save c _ hInv hd
    · rw [if_neg hemp] at hd ⊢
      simp only [decide_eq_true_eq] at hd
      by_cases hov : u64Mod ≤ cdp.totalStakedBcoins + s ∨
          u64Mod ≤ cdp.totalOwedScoins + m
      · rw [if_pos hov]
        exact hInv
      · rw [if_neg hov]
        have hne : c ≠ [] := hInv.1
        have hInv2 := memInv_erase c cdp hInv hd
        apply memInv_save _ _ hInv2
        apply noPresentId_of
        intro k rec hdec hid
        rw [chainDecision_erase c cdp hne] at hdec
        by_cases hk : k = cdpKey cdp
        · rw [if_pos hk] at hdec
          cases hdec
        · rw [if_neg hk] at hdec
          exact hk (hInv.2.2.1 k (cdpKey cdp) rec cdp hdec hd hid.1 hid.2)

/-- Helper: a disciplined sequence preserves the invariant. -/
theorem memInv_ops (ops : List MemOp) :
    ∀ c, memInv c → disciplinedOps c ops = true →
      memInv (applyMemOps c ops) := by
  induction ops with
  | nil => intro c hInv _; exact hInv
  | cons op rest ih =>
    intro c hInv hdisc
    rw [disciplinedOps, Bool.and_eq_true] at hdisc
    exact ih _ (memInv_step c op hInv hdisc.1) hdisc.2

/-- Helper: the root chain (one freshly constructed layer) satisfies the
invariant. -/
theorem memInv_init : memInv [emptyMemLayer] := by
  refine ⟨by simp, ?_, ?_, ?_⟩
  · intro l hl e he
    rcases List.mem_cons.mp hl with rfl | hl2
    · simp [emptyMemLayer] at he
    · simp at hl2
  · intro k1 k2 r1 r2 h1 h2 ho ht
    cases h1
  · rfl

/-! ## Claim C1 theorems -/

/-- Claim C1 counterexample: the claim quantifies over every operation
sequence.  Saving the same record twice (the save-without-erase contract
violation) makes `GetGlobalCollateral` count the record twice, while the
merged view holds it Present once: 4 versus 2. -/
theorem c1_double_save :
    getGlobalCollateral
      (applyMemOps [emptyMemLayer]
        [MemOp.save ⟨Dbl.val 2, 1, 1, 0, 2, 1⟩,
         MemOp.save ⟨Dbl.val 2, 1, 1, 0, 2, 1⟩]) = 4 ∧
    presentStakedSum
      (applyMemOps [emptyMemLayer]
        [MemOp.save ⟨Dbl.val 2, 1, 1, 0, 2, 1⟩,
         MemOp.save ⟨Dbl.val 2, 1, 1, 0, 2, 1⟩]) = 2 := by
  constructor
  · decide
  · decide

/-- Claim C1 (amended): for every sequence of `SaveCdp` / `EraseCdp` /
`StakeBcoinsToCdp` / new-layer operations over a chain of `CCdpMemCache`
layers that respects the spec's erase-before-save discipline
(`disciplinedOps`), `GetGlobalCollateral` equals the sum (as a 64-bit
value) of `totalStakedBcoins` over exactly the keys whose nearest
(most-descendant) decision is Present — tombstones mask ancestors and
contribute nothing — and no identity is Present under two different keys,
so no identity is counted twice. -/
theorem c1_global_collateral (ops : List MemOp)
    (hdisc : disciplinedOps [emptyMemLayer] ops = true) :
    getGlobalCollateral (applyMemOps [emptyMemLayer] ops)
      = presentStakedSum (applyMemOps [emptyMemLayer] ops) % u64Mod ∧
    distinctIds (applyMemOps [emptyMemLayer] ops) := by
  have hInv := memInv_ops ops [emptyMemLayer] memInv_init hdisc
  exact ⟨hInv.2.2.2, hInv.2.2.1⟩

/-- Witness for `c1_global_collateral`: open a child layer, create a CDP
there, stake more onto it, then erase it. -/
theorem c1_global_collateral_witness :
    disciplinedOps [emptyMemLayer]
      [MemOp.push,
       MemOp.save ⟨Dbl.val 2, 1, 3, 0, 2, 1⟩,
       MemOp.push,
       MemOp.stake 9 4 2 ⟨Dbl.val 2, 1, 3, 0, 2, 1⟩,
       MemOp.erase ⟨Dbl.val 2, 1, 3, 9, 6, 3⟩] = true ∧
    getGlobalCollateral (applyMemOps [emptyMemLayer]
      [MemOp.push,
       MemOp.save ⟨Dbl.val 2, 1, 3, 0, 2, 1⟩,
       MemOp.push,
       MemOp.stake 9 4 2 ⟨Dbl.val 2, 1, 3, 0, 2, 1⟩,
       MemOp.erase ⟨Dbl.val 2, 1, 3, 9, 6, 3⟩])
      = presentStakedSum (applyMemOps [emptyMemLayer]
      [MemOp.push,
       MemOp.save ⟨Dbl.val 2, 1, 3, 0, 2, 1⟩,
       MemOp.push,
       MemOp.stake 9 4 2 ⟨Dbl.val 2, 1, 3, 0, 2, 1⟩,
       MemOp.erase ⟨Dbl.val 2, 1, 3, 9, 6, 3⟩]) % u64Mod :=
  ⟨by decide, (c1_global_collateral _ (by decide)).1⟩

/-! ## The persisted identity store (`CCdpDBCache`) and its operations

`CCdpDBCache` pairs a keyed identity store (`cdpCache`, a
`CDBMultiValueCache` over key `cdp$CRegID$CTxID`, cdpdb.h lines 160-164)
with the in-memory index (`cdpMemCache`).  The bodies of
`StakeBcoinsToCdp` and `UndoData` live outside the snapshot and are
modelled from the specification.  The layered identity store is a list of
association-list layers, most-descendant first; an entry with value
`none` is the erased-marker that masks ancestors. -/

/-- Identity key of the persisted store: `(ownerRegId, cdpTxId)`. -/
abbrev IdKey := Nat × Nat

/-- Identity key of a record. -/
def idKeyOf (r : CUserCDP) : IdKey := (r.ownerRegId, r.cdpTxId)

/-- One layer of the keyed identity store; `none` marks erasure. -/
abbrev IdLayer := List (IdKey × Option CUserCDP)

/-- The paired state of one `CCdpDBCache` layer chain: the identity-store
layers and the index layers. -/
structure DbState where
  idChain : List IdLayer
  memChain : List CdpMemLayer
deriving DecidableEq

/-- Modelled from the spec: `Get` against the layered identity store —
the nearest layer that mentions the key decides; its `none` marker means
absent. -/
def idChainGet : List IdLayer → IdKey → Option CUserCDP
  | [], _ => none
  | l :: rest, k =>
    match lookupL l k with
    | some v => v
    | none => idChainGet rest k

/-- Write a key (value or erased-marker) into the active layer. -/
def idWriteChain : List IdLayer → IdKey → Option CUserCDP → List IdLayer
  | [], _, _ => []
  | hd :: tl, k, v => ((k, v) :: hd) :: tl

/-- The undo log (`CDBOpLogMap`): ordered `(key, previous value | Absent)`
entries, appended by mutations. -/
abbrev CdpOpLog := List (IdKey × Option CUserCDP)

/-- Modelled from the spec: `CCdpDBCache::StakeBcoinsToCdp` (declared
cdpdb.h lines 140-141, body missing).  An empty-sentinel record creates a
new CDP with the staked/minted amounts; an existing record is updated by
accumulation, failing atomically (no state change) when a 64-bit total
would overflow; the update first erases the index entry under the
record's current ratio, then writes the new record to the identity store
(appending the prior value or Absent to the undo log) and saves it into
the index under the new ratio.  Returns (success, updated record, state,
log). -/
def stakeBcoinsToCdp (blockHeight : Int) (bcoinsToStake mintedScoins : Nat)
    (cdp : CUserCDP) (st : DbState) (log : CdpOpLog) :
    Bool × CUserCDP × DbState × CdpOpLog :=
  if cdp.isEmptyCdp then
    let newCdp : CUserCDP :=
      ⟨ratOf bcoinsToStake mintedScoins, cdp.ownerRegId, cdp.cdpTxId,
       blockHeight, bcoinsToStake, mintedScoins⟩
    let k := idKeyOf newCdp
    let prev := idChainGet st.idChain k
    (true, newCdp,
     { idChain := idWriteChain st.idChain k (some newCdp),
       memChain := memSaveChain st.memChain newCdp },
     log ++ [(k, prev)])
  else if u64Mod ≤ cdp.totalStakedBcoins + bcoinsToStake ∨
      u64Mod ≤ cdp.totalOwedScoins + mintedScoins then
    (false, cdp, st, log)
  else
    let newCdp : CUserCDP :=
      ⟨ratOf (cdp.totalStakedBcoins + bcoinsToStake)
             (cdp.totalOwedScoins + mintedScoins),
       cdp.ownerRegId, cdp.cdpTxId, blockHeight,
       cdp.totalStakedBcoins + bcoinsToStake,
       cdp.totalOwedScoins + mintedScoins⟩
    let st1 : DbState := { st with memChain := memEraseChain st.memChain cdp }
    let k := idKeyOf newCdp
    let prev := idChainGet st1.idChain k
    (true, newCdp,
     { idChain := idWriteChain st1.idChain k (some newCdp),
       memChain := memSaveChain st1.memChain newCdp },
     log ++ [(k, prev)])

/-- Modelled from the spec: `UndoData` as called by `CCdpDBCache::UndoCdp`
(cdpdb.h line 151) — replay the log entries in reverse order against the
identity store only, restoring each prior value; an Absent marker restores
"not found" (in the layered store, by writing the erased-marker). -/
def undoData (log : CdpOpLog) (ch : List IdLayer) : List IdLayer :=
  log.reverse.foldl (fun acc e => idWriteChain acc e.1 e.2) ch

/-! ## Claim C2 -/

/-- Claim C2: for an existing CDP record, if accumulating the staked or
minted amount would overflow an unsigned 64-bit total,
`StakeBcoinsToCdp` returns failure and returns the state unchanged — both
the identity store (`cdpCache`) and the index (`cdpMemCache`) are exactly
as before, and nothing is appended to the undo log. -/
theorem c2_stake_overflow_atomic (st : DbState) (h : Int) (s m : Nat)
    (cdp : CUserCDP) (log : CdpOpLog)
    (hex : cdp.isEmptyCdp = false)
    (hov : u64Mod ≤ cdp.totalStakedBcoins + s ∨
      u64Mod ≤ cdp.totalOwedScoins + m) :
    stakeBcoinsToCdp h s m cdp st log = (false, cdp, st, log) := by
  unfold stakeBcoinsToCdp
  rw [if_neg (by simp [hex]), if_pos hov]

/-- Witness for `c2_stake_overflow_atomic`: an existing record one coin
below the 64-bit bound, staked five more. -/
theorem c2_stake_overflow_atomic_witness :
    stakeBcoinsToCdp 3 5 0
      ⟨Dbl.val 1, 1, 2, 0, 18446744073709551615, 1⟩
      ⟨[[]], [emptyMemLayer]⟩ []
    = (false, ⟨Dbl.val 1, 1, 2, 0, 18446744073709551615, 1⟩,
       ⟨[[]], [emptyMemLayer]⟩, []) :=
  c2_stake_overflow_atomic ⟨[[]], [emptyMemLayer]⟩ 3 5 0
    ⟨Dbl.val 1, 1, 2, 0, 18446744073709551615, 1⟩ []
    (by decide) (by decide)

/-! ## Claim C5 -/

/-- Helper: writing back the previously read value on top of a write
restores the layered store pointwise. -/
theorem idChainGet_undo_single (ch : List IdLayer) (k0 : IdKey)
    (v : Option CUserCDP) (k : IdKey) :
    idChainGet
      (idWriteChain (idWriteChain ch k0 v) k0 (idChainGet ch k0)) k
      = idChainGet ch k := by
  cases ch with
  | nil => rfl
  | cons hd tl =>
    by_cases hk : k = k0
    · subst hk
      simp [idWriteChain, idChainGet, lookupL]
    · simp [idWriteChain, idChainGet, lookupL, hk]

/-- Claim C5: a successful `StakeBcoinsToCdp` from identity-store state S
(with a fresh undo log) followed immediately by `UndoCdp` of the produced
log restores the identity store to exactly S, observably: every key reads
the same value as before — the prior value for a pre-existing CDP, and
"not found" (no residual observable entry) for a freshly created CDP. -/
theorem c5_undo_restores (st : DbState) (h : Int) (s m : Nat)
    (cdp : CUserCDP)
    (hsucc : (stakeBcoinsToCdp h s m cdp st []).1 = true) :
    ∀ k, idChainGet
        (undoData (stakeBcoinsToCdp h s m cdp st []).2.2.2
          (stakeBcoinsToCdp h s m cdp st []).2.2.1.idChain) k
      = idChainGet st.idChain k := by
  intro k
  unfold stakeBcoinsToCdp at hsucc ⊢
  by_cases hemp : cdp.isEmptyCdp = true
  · rw [if_pos hemp] at hsucc ⊢
    exact idChainGet_undo_single st.idChain _ _ k
  · rw [if_neg hemp] at hsucc ⊢
    by_cases hov : u64Mod ≤ cdp.totalStakedBcoins + s ∨
        u64Mod ≤ cdp.totalOwedScoins + m
    · rw [if_pos hov] at hsucc
      cases hsucc
    · rw [if_neg hov] at hsucc ⊢
      exact idChainGet_undo_single st.idChain _ _ k

/-- Witness for `c5_undo_restores`: stake onto an existing CDP held in the
root identity layer, undo, and read its key back. -/
theorem c5_undo_restores_witness :
    idChainGet
      (undoData
        (stakeBcoinsToCdp 7 3 1 ⟨Dbl.val 2, 1, 2, 0, 2, 1⟩
          ⟨[[((1, 2), some ⟨Dbl.val 2, 1, 2, 0, 2, 1⟩)]], [emptyMemLayer]⟩
          []).2.2.2
        (stakeBcoinsToCdp 7 3 1 ⟨Dbl.val 2, 1, 2, 0, 2, 1⟩
          ⟨[[((1, 2), some ⟨Dbl.val 2, 1, 2, 0, 2, 1⟩)]], [emptyMemLayer]⟩
          []).2.2.1.idChain) (1, 2)
    = idChainGet [[((1, 2), some ⟨Dbl.val 2, 1, 2, 0, 2, 1⟩)]] (1, 2) :=
  c5_undo_restores
    ⟨[[((1, 2), some ⟨Dbl.val 2, 1, 2, 0, 2, 1⟩)]], [emptyMemLayer]⟩
    7 3 1 ⟨Dbl.val 2, 1, 2, 0, 2, 1⟩ (by decide) (1, 2)

/-! ## Claim C9: the copy constructor of `CCdpDBCache` -/

/-- Object-level embedding of `class CCdpMemCache` (cdpdb.h lines
94-127): the entry map (`map<CUserCDP, uint8_t> cdps`, flag `true` =
valid), the running totals, and the raw base/access pointers, abstracted
as optional addresses (`none` = `nullptr`, the in-class defaults). -/
structure CCdpMemCache where
  cdps : List (CUserCDP × Bool)
  totalStakedBcoins : Nat
  totalOwedScoins : Nat
  pBase : Option Nat
  pAccess : Option Nat
deriving DecidableEq

/-- Object-level embedding of the `cdpCache` member
(`CDBMultiValueCache<dbk::CDP, pair<string,uint256>, CUserCDP>`, cdpdb.h
line 164): its own map and base pointer. -/
structure CdpIdCache where
  mapCache : List (IdKey × Option CUserCDP)
  pBase : Option Nat
deriving DecidableEq

/-- Object-level embedding of `class CCdpDBCache` (cdpdb.h lines
129-169): the persisted identity cache and the memory-only index. -/
structure CCdpDBCache where
  cdpCache : CdpIdCache
  cdpMemCache : CCdpMemCache
deriving DecidableEq

/-- Embedding of the constructor `CCdpDBCache(CCdpDBCache *pBaseIn)`
(cdpdb.h line 133): its initializer list copy-constructs both members
(`cdpCache(pBaseIn->cdpCache), cdpMemCache(pBaseIn->cdpMemCache)`), and
the implicit copy constructors copy every field, the `pBase` pointers
included. -/
def CCdpDBCache.fromBase (b : CCdpDBCache) : CCdpDBCache :=
  { cdpCache := b.cdpCache, cdpMemCache := b.cdpMemCache }

/-- Embedding of `CCdpDBCache::SetBaseView` (cdpdb.h lines 135-138):
rebind both members' base pointers to the given base object's members'
addresses. -/
def CCdpDBCache.setBaseView (x : CCdpDBCache)
    (baseIdAddr baseMemAddr : Nat) : CCdpDBCache :=
  { cdpCache := { x.cdpCache with pBase := some baseIdAddr },
    cdpMemCache := { x.cdpMemCache with pBase := some baseMemAddr } }

/-- Claim C9: `CCdpDBCache(&b)` copy-constructs both member caches, so
the new object's `cdpMemCache` starts with a full copy of
`b.cdpMemCache`'s entry map and aggregate totals, and its `pBase` equals
`b.cdpMemCache`'s own `pBase` (b's parent) — in particular, whenever b's
parent pointer is not b's own `cdpMemCache` address, the new layer is not
chained under b; only an explicit `SetBaseView` makes it point at b's
members. -/
theorem c9_copy_constructor (b : CCdpDBCache) (addrMemOfB : Nat) :
    (CCdpDBCache.fromBase b).cdpMemCache.cdps = b.cdpMemCache.cdps ∧
    (CCdpDBCache.fromBase b).cdpMemCache.totalStakedBcoins
      = b.cdpMemCache.totalStakedBcoins ∧
    (CCdpDBCache.fromBase b).cdpMemCache.totalOwedScoins
      = b.cdpMemCache.totalOwedScoins ∧
    (CCdpDBCache.fromBase b).cdpMemCache.pBase = b.cdpMemCache.pBase ∧
    (b.cdpMemCache.pBase ≠ some addrMemOfB →
      (CCdpDBCache.fromBase b).cdpMemCache.pBase ≠ some addrMemOfB) ∧
    (∀ ia ma, ((CCdpDBCache.fromBase b).setBaseView ia ma).cdpMemCache.pBase
      = some ma ∧
      ((CCdpDBCache.fromBase b).setBaseView ia ma).cdpCache.pBase
      = some ia) := by
  exact ⟨rfl, rfl, rfl, rfl, fun hne => hne, fun ia ma => ⟨rfl, rfl⟩⟩

/-- Witness for `c9_copy_constructor`: a concrete base cache holding one
valid entry and a parent pointer distinct from its own address. -/
theorem c9_copy_constructor_witness :
    (CCdpDBCache.fromBase
      ⟨⟨[], none⟩,
       ⟨[(⟨Dbl.val 2, 1, 2, 0, 2, 1⟩, true)], 2, 1, some 5, none⟩⟩
     ).cdpMemCache.cdps
      = [(⟨Dbl.val 2, 1, 2, 0, 2, 1⟩, true)] ∧
    (CCdpDBCache.fromBase
      ⟨⟨[], none⟩,
       ⟨[(⟨Dbl.val 2, 1, 2, 0, 2, 1⟩, true)], 2, 1, some 5, none⟩⟩
     ).cdpMemCache.pBase ≠ some 9 :=
  ⟨(c9_copy_constructor
      ⟨⟨[], none⟩,
       ⟨[(⟨Dbl.val 2, 1, 2, 0, 2, 1⟩, true)], 2, 1, some 5, none⟩⟩ 9).1,
   (c9_copy_constructor
      ⟨⟨[], none⟩,
       ⟨[(⟨Dbl.val 2, 1, 2, 0, 2, 1⟩, true)], 2, 1, some 5, none⟩⟩ 9
    ).2.2.2.2.1 (by decide)⟩

/-! ## Claim C4: flushing a child layer is equivalent to operating on the
parent directly -/

/-- The mutating operations of `CCdpDBCache` for claim C4: `SaveCdp`,
`EraseCdp`, `StakeBcoinsToCdp` (undo logs do not affect the state and are
omitted). -/
inductive DbOp where
  | save : CUserCDP → DbOp
  | erase : CUserCDP → DbOp
  | stake : Int → Nat → Nat → CUserCDP → DbOp

/-- Modelled from the spec: apply one `CCdpDBCache` operation — a save
writes the record to the identity store and mirrors it into the index; an
erase writes the erased-marker and tombstones the index; a stake is
`StakeBcoinsToCdp`. -/
def applyDbOp (st : DbState) : DbOp → DbState
  | .save r =>
    { idChain := idWriteChain st.idChain (idKeyOf r) (some r),
      memChain := memSaveChain st.memChain r }
  | .erase r =>
    { idChain := idWriteChain st.idChain (idKeyOf r) none,
      memChain := memEraseChain st.memChain r }
  | .stake h s m cdp => (stakeBcoinsToCdp h s m cdp st []).2.2.1

/-- Apply a sequence of operations. -/
def applyDbOps (st : DbState) : List DbOp → DbState
  | [] => st
  | op :: rest => applyDbOps (applyDbOp st op) rest

/-- Open a fresh child layer pair over the given state (the spec's
per-block layer creation: empty layers chained on the parent). -/
def pushDb (st : DbState) : DbState :=
  { idChain := [] :: st.idChain, memChain := emptyMemLayer :: st.memChain }

/-- Modelled from the spec: merging a child index layer into its parent
on `Flush` — the child's entries shadow the parent's (first-match lookup)
and the aggregates, propagated only through `Flush`, are added with
64-bit wrap-around. -/
def mergeMemLayer (p c : CdpMemLayer) : CdpMemLayer :=
  { cdps := c.cdps ++ p.cdps,
    totalStakedBcoins := (c.totalStakedBcoins + p.totalStakedBcoins) % u64Mod,
    totalOwedScoins := (c.totalOwedScoins + p.totalOwedScoins) % u64Mod }

/-- Modelled from the spec: `CCdpDBCache::Flush` (declared cdpdb.h line
157, body missing) — merge the active child layer of both the identity
store and the index down into the parent layer, then discard the child. -/
def flushDb (st : DbState) : DbState :=
  { idChain :=
      match st.idChain with
      | c :: p :: rest => (c ++ p) :: rest
      | other => other,
    memChain :=
      match st.memChain with
      | c :: p :: rest => mergeMemLayer p c :: rest
      | other => other }

/-- All keys mentioned in the identity-store chain. -/
def idChainKeys : List IdLayer → List IdKey
  | [] => []
  | l :: rest => l.map Prod.fst ++ idChainKeys rest

/-- Modelled from the spec: `CCdpDBCache::GetCdpList` (declared cdpdb.h
line 144, body missing) — the records of the identity store view owned by
the given `CRegID`. -/
def getCdpList (st : DbState) (regId : Nat) : List CUserCDP :=
  (idChainKeys st.idChain).filterMap (fun k =>
    match idChainGet st.idChain k with
    | some r => if r.ownerRegId = regId then some r else none
    | none => none)

/-- Observable equivalence of two cache states: same identity-store view,
same merged index view, same global staked aggregate. -/
def dbEquiv (s1 s2 : DbState) : Prop :=
  (∀ k, idChainGet s1.idChain k = idChainGet s2.idChain k) ∧
  (∀ k, chainDecision s1.memChain k = chainDecision s2.memChain k) ∧
  aggStaked s1.memChain % u64Mod = aggStaked s2.memChain % u64Mod

/-- Helper: equivalence is transitive. -/
theorem dbEquiv_trans (s1 s2 s3 : DbState) (h12 : dbEquiv s1 s2)
    (h23 : dbEquiv s2 s3) : dbEquiv s1 s3 := by
  refine ⟨fun k => ?_, fun k => ?_, ?_⟩
  · rw [h12.1 k, h23.1 k]
  · rw [h12.2.1 k, h23.2.1 k]
  · rw [h12.2.2, h23.2.2]

/-- Helper: first-match lookup across an append. -/
theorem lookupL_append {κ α : Type} [DecidableEq κ]
    (a b : List (κ × α)) (k : κ) :
    lookupL (a ++ b) k
      = match lookupL a k with
        | some v => some v
        | none => lookupL b k := by
  induction a with
  | nil => rfl
  | cons e t ih =>
    obtain ⟨k1, v1⟩ := e
    by_cases hk : k = k1
    · simp [lookupL, hk]
    · simp only [List.cons_append, lookupL, if_neg hk]
      exact ih

/-- Helper: the identity-store view is unchanged by merging the child
layer into its parent. -/
theorem idChainGet_merge (c p : IdLayer) (rest : List IdLayer) (k : IdKey) :
    idChainGet ((c ++ p) :: rest) k = idChainGet (c :: p :: rest) k := by
  simp only [idChainGet, lookupL_append]
  cases lookupL c k with
  | some v => rfl
  | none => rfl

/-- Helper: the merged index view is unchanged by merging the child layer
into its parent. -/
theorem chainDecision_merge (c p : CdpMemLayer) (rest : List CdpMemLayer)
    (k : CdpKey) :
    chainDecision (mergeMemLayer p c :: rest) k
      = chainDecision (c :: p :: rest) k := by
  simp only [chainDecision, mergeMemLayer, lookupL_append]
  cases lookupL c.cdps k with
  | some v => rfl
  | none => rfl

/-- Helper: the aggregate sum is unchanged (mod 2^64) by merging. -/
theorem aggStaked_merge (c p : CdpMemLayer) (rest : List CdpMemLayer) :
    aggStaked (mergeMemLayer p c :: rest) % u64Mod
      = aggStaked (c :: p :: rest) % u64Mod := by
  simp only [aggStaked, mergeMemLayer, List.map_cons, List.sum_cons, u64Mod]
  omega

/-- Helper: flushing a chain of at least two layers preserves the
observable state. -/
theorem dbEquiv_flush (st : DbState)
    (hi : 2 ≤ st.idChain.length) (hm : 2 ≤ st.memChain.length) :
    dbEquiv (flushDb st) st := by
  obtain ⟨ic, ip, irest, hid⟩ : ∃ a b r, st.idChain = a :: b :: r := by
    cases hic : st.idChain with
    | nil => rw [hic] at hi; simp at hi
    | cons a t =>
      cases t with
      | nil => rw [hic] at hi; simp at hi
      | cons b r => exact ⟨a, b, r, rfl⟩
  obtain ⟨mc, mp, mrest, hmd⟩ : ∃ a b r, st.memChain = a :: b :: r := by
    cases hmc : st.memChain with
    | nil => rw [hmc] at hm; simp at hm
    | cons a t =>
      cases t with
      | nil => rw [hmc] at hm; simp at hm
      | cons b r => exact ⟨a, b, r, rfl⟩
  refine ⟨fun k => ?_, fun k => ?_, ?_⟩
  · simp only [flushDb, hid]
    exact idChainGet_merge ic ip irest k
  · simp only [flushDb, hmd]
    exact chainDecision_merge mc mp mrest k
  · simp only [flushDb, hmd]
    exact aggStaked_merge mc mp mrest

/-- Helper: opening an empty child layer pair preserves the observable
state. -/
theorem dbEquiv_push (st : DbState) : dbEquiv (pushDb st) st := by
  refine ⟨fun k => rfl, fun k => rfl, ?_⟩
  simp [pushDb, aggStaked, emptyMemLayer]

/-- Helper: writing into the active identity layer decides the written
key and leaves other keys unchanged. -/
theorem idChainGet_write (ch : List IdLayer) (hne : ch ≠ [])
    (k0 : IdKey) (v : Option CUserCDP) (k : IdKey) :
    idChainGet (idWriteChain ch k0 v) k
      = if k = k0 then v else idChainGet ch k := by
  cases ch with
  | nil => exact absurd rfl hne
  | cons hd tl =>
    by_cases hk : k = k0
    · simp [idWriteChain, idChainGet, lookupL, hk]
    · simp [idWriteChain, idChainGet, lookupL, hk]

/-- Helper: an erase whose key is not Present in the merged view leaves
the aggregates untouched. -/
theorem aggStaked_erase_absent (c : List CdpMemLayer) (r : CUserCDP)
    (hp : presentFlag c (cdpKey r) = false) :
    aggStaked (memEraseChain c r) = aggStaked c := by
  cases c with
  | nil => rfl
  | cons hd tl =>
    simp only [memEraseChain, aggStaked, List.map_cons, List.sum_cons, hp,
      if_false, Bool.false_eq_true]

/-- Helper: layer-count preservation for the identity store write. -/
theorem idWriteChain_length (ch : List IdLayer) (k : IdKey)
    (v : Option CUserCDP) :
    (idWriteChain ch k v).length = ch.length := by
  cases ch with
  | nil => rfl
  | cons hd tl => rfl

/-- Helper: layer-count preservation for index saves. -/
theorem memSaveChain_length (c : List CdpMemLayer) (r : CUserCDP) :
    (memSaveChain c r).length = c.length := by
  cases c with
  | nil => rfl
  | cons hd tl => rfl

/-- Helper: layer-count preservation for index erases. -/
theorem memEraseChain_length (c : List CdpMemLayer) (r : CUserCDP) :
    (memEraseChain c r).length = c.length := by
  cases c with
  | nil => rfl
  | cons hd tl => rfl

/-- Helper: every operation preserves the number of identity layers. -/
theorem applyDbOp_idLength (st : DbState) (op : DbOp) :
    (applyDbOp st op).idChain.length = st.idChain.length := by
  cases op with
  | save r => exact idWriteChain_length _ _ _
  | erase r => exact idWriteChain_length _ _ _
  | stake h s m cdp =>
    simp only [applyDbOp, stakeBcoinsToCdp]
    by_cases hemp : cdp.isEmptyCdp = true
    · rw [if_pos hemp]
      exact idWriteChain_length _ _ _
    · rw [if_neg hemp]
      by_cases hov : u64Mod ≤ cdp.totalStakedBcoins + s ∨
          u64Mod ≤ cdp.totalOwedScoins + m
      · rw [if_pos hov]
      · rw [if_neg hov]
        exact idWriteChain_length _ _ _

/-- Helper: every operation preserves the number of index layers. -/
theorem applyDbOp_memLength (st : DbState) (op : DbOp) :
    (applyDbOp st op).memChain.length = st.memChain.length := by
  cases op with
  | save r => exact memSaveChain_length _ _
  | erase r => exact memEraseChain_length _ _
  | stake h s m cdp =>
    simp only [applyDbOp, stakeBcoinsToCdp]
    by_cases hemp : cdp.isEmptyCdp = true
    · rw [if_pos hemp]
      exact memSaveChain_length _ _
    · rw [if_neg hemp]
      by_cases hov : u64Mod ≤ cdp.totalStakedBcoins + s ∨
          u64Mod ≤ cdp.totalOwedScoins + m
      · rw [if_pos hov]
      · rw [if_neg hov]
        rw [memSaveChain_length, memEraseChain_length]

/-- Helper: sequences preserve the number of identity layers. -/
theorem applyDbOps_idLength (ops : List DbOp) :
    ∀ st : DbState, (applyDbOps st ops).idChain.length = st.idChain.length := by
  induction ops with
  | nil => intro st; rfl
  | cons op rest ih =>
    intro st
    rw [applyDbOps, ih, applyDbOp_idLength]

/-- Helper: sequences preserve the number of index layers. -/
theorem applyDbOps_memLength (ops : List DbOp) :
    ∀ st : DbState, (applyDbOps st ops).memChain.length = st.memChain.length := by
  induction ops with
  | nil => intro st; rfl
  | cons op rest ih =>
    intro st
    rw [applyDbOps, ih, applyDbOp_memLength]

/-- Helper: an identity write plus index save applied to observably-equal
states yields observably-equal states. -/
theorem dbEquiv_writeSave (s1 s2 : DbState) (h : dbEquiv s1 s2)
    (h1i : s1.idChain ≠ []) (h2i : s2.idChain ≠ [])
    (h1m : s1.memChain ≠ []) (h2m : s2.memChain ≠ [])
    (k0 : IdKey) (v : Option CUserCDP) (r : CUserCDP) :
    dbEquiv ⟨idWriteChain s1.idChain k0 v, memSaveChain s1.memChain r⟩
            ⟨idWriteChain s2.idChain k0 v, memSaveChain s2.memChain r⟩ := by
  refine ⟨fun k => ?_, fun k => ?_, ?_⟩
  · rw [idChainGet_write _ h1i, idChainGet_write _ h2i]
    by_cases hk : k = k0
    · rw [if_pos hk, if_pos hk]
    · rw [if_neg hk, if_neg hk]
      exact h.1 k
  · rw [chainDecision_save _ _ h1m, chainDecision_save _ _ h2m]
    by_cases hk : k = cdpKey r
    · rw [if_pos hk, if_pos hk]
    · rw [if_neg hk, if_neg hk]
      exact h.2.1 k
  · have := h.2.2
    rw [aggStaked_save_mod _ _ h1m, aggStaked_save_mod _ _ h2m]
    simp only [u64Mod] at this ⊢
    omega

/-- Helper: an index erase applied to observably-equal states yields
observably-equal states (the identity store is untouched). -/
theorem dbEquiv_memErase (s1 s2 : DbState) (h : dbEquiv s1 s2)
    (h1m : s1.memChain ≠ []) (h2m : s2.memChain ≠ []) (r : CUserCDP) :
    dbEquiv ⟨s1.idChain, memEraseChain s1.memChain r⟩
            ⟨s2.idChain, memEraseChain s2.memChain r⟩ := by
  have hpf : presentFlag s1.memChain (cdpKey r)
      = presentFlag s2.memChain (cdpKey r) := by
    unfold presentFlag
    rw [h.2.1 (cdpKey r)]
  refine ⟨fun k => h.1 k, fun k => ?_, ?_⟩
  · rw [chainDecision_erase _ _ h1m, chainDecision_erase _ _ h2m]
    by_cases hk : k = cdpKey r
    · rw [if_pos hk, if_pos hk]
    · rw [if_neg hk, if_neg hk]
      exact h.2.1 k
  · cases hflag : presentFlag s2.memChain (cdpKey r) with
    | true =>
      have := h.2.2
      rw [aggStaked_erase_mod _ _ h1m (hpf.trans hflag),
          aggStaked_erase_mod _ _ h2m hflag]
      simp only [u64Mod] at this ⊢
      omega
    | false =>
      rw [aggStaked_erase_absent _ _ (hpf.trans hflag),
          aggStaked_erase_absent _ _ hflag]
      exact h.2.2

/-- Helper: each operation preserves observable equivalence of states,
whichever layer depths the two sides have. -/
theorem dbEquiv_applyOp (s1 s2 : DbState) (h : dbEquiv s1 s2)
    (h1i : s1.idChain ≠ []) (h2i : s2.idChain ≠ [])
    (h1m : s1.memChain ≠ []) (h2m : s2.memChain ≠ []) (op : DbOp) :
    dbEquiv (applyDbOp s1 op) (applyDbOp s2 op) := by
  cases op with
  | save r => exact dbEquiv_writeSave s1 s2 h h1i h2i h1m h2m _ _ r
  | erase r =>
    have := dbEquiv_memErase s1 s2 h h1m h2m r
    refine ⟨fun k => ?_, this.2.1, this.2.2⟩
    simp only [applyDbOp]
    rw [idChainGet_write _ h1i, idChainGet_write _ h2i]
    by_cases hk : k = idKeyOf r
    · rw [if_pos hk, if_pos hk]
    · rw [if_neg hk, if_neg hk]
      exact h.1 k
  | stake hh s m cdp =>
    simp only [applyDbOp, stakeBcoinsToCdp]
    by_cases hemp : cdp.isEmptyCdp = true
    · simp only [if_pos hemp]
      exact dbEquiv_writeSave s1 s2 h h1i h2i h1m h2m _ _ _
    · simp only [if_neg hemp]
      by_cases hov : u64Mod ≤ cdp.totalStakedBcoins + s ∨
          u64Mod ≤ cdp.totalOwedScoins + m
      · simp only [if_pos hov]
        exact h
      · simp only [if_neg hov]
        have he := dbEquiv_memErase s1 s2 h h1m h2m cdp
        have h1m2 : memEraseChain s1.memChain cdp ≠ [] := by
          intro hc
          have := memEraseChain_length s1.memChain cdp
          rw [hc] at this
          cases hmc : s1.memChain with
          | nil => exact h1m hmc
          | cons a t => rw [hmc] at this; simp at this
        have h2m2 : memEraseChain s2.memChain cdp ≠ [] := by
          intro hc
          have := memEraseChain_length s2.memChain cdp
          rw [hc] at this
          cases hmc : s2.memChain with
          | nil => exact h2m hmc
          | cons a t => rw [hmc] at this; simp at this
        exact dbEquiv_writeSave
          ⟨s1.idChain, memEraseChain s1.memChain cdp⟩
          ⟨s2.idChain, memEraseChain s2.memChain cdp⟩
          he h1i h2i h1m2 h2m2 _ _ _

/-- Helper: sequences preserve observable equivalence. -/
theorem dbEquiv_applyOps (ops : List DbOp) :
    ∀ s1 s2 : DbState, dbEquiv s1 s2 →
      s1.idChain ≠ [] → s2.idChain ≠ [] →
      s1.memChain ≠ [] → s2.memChain ≠ [] →
      dbEquiv (applyDbOps s1 ops) (applyDbOps s2 ops) := by
  induction ops with
  | nil => intro s1 s2 h _ _ _ _; exact h
  | cons op rest ih =>
    intro s1 s2 h h1i h2i h1m h2m
    have hni1 : (applyDbOp s1 op).idChain ≠ [] := by
      intro hc
      have := applyDbOp_idLength s1 op
      rw [hc] at this
      cases hic : s1.idChain with
      | nil => exact h1i hic
      | cons a t => rw [hic] at this; simp at this
    have hni2 : (applyDbOp s2 op).idChain ≠ [] := by
      intro hc
      have := applyDbOp_idLength s2 op
      rw [hc] at this
      cases hic : s2.idChain with
      | nil => exact h2i hic
      | cons a t => rw [hic] at this; simp at this
    have hnm1 : (applyDbOp s1 op).memChain ≠ [] := by
      intro hc
      have := applyDbOp_memLength s1 op
      rw [hc] at this
      cases hic : s1.memChain with
      | nil => exact h1m hic
      | cons a t => rw [hic] at this; simp at this
    have hnm2 : (applyDbOp s2 op).memChain ≠ [] := by
      intro hc
      have := applyDbOp_memLength s2 op
      rw [hc] at this
      cases hic : s2.memChain with
      | nil => exact h2m hic
      | cons a t => rw [hic] at this; simp at this
    exact ih _ _ (dbEquiv_applyOp s1 s2 h h1i h2i h1m h2m op)
      hni1 hni2 hnm1 hnm2

/-- Helper: a readable key occurs among the identity-chain keys. -/
theorem idChainGet_mem_keys (ch : List IdLayer) (k : IdKey) (r : CUserCDP)
    (h : idChainGet ch k = some r) : k ∈ idChainKeys ch := by
  induction ch with
  | nil => cases h
  | cons hd tl ih =>
    rw [idChainGet] at h
    rw [idChainKeys, List.mem_append]
    cases hl : lookupL hd k with
    | some v => exact Or.inl (lookupL_some_mem_keys _ _ _ hl)
    | none =>
      rw [hl] at h
      exact Or.inr (ih h)

/-- Helper: membership in `GetCdpList` is exactly a readable record with
the requested owner. -/
theorem mem_getCdpList (st : DbState) (regId : Nat) (r : CUserCDP) :
    r ∈ getCdpList st regId ↔
      ∃ k, idChainGet st.idChain k = some r ∧ r.ownerRegId = regId := by
  constructor
  · intro h
    unfold getCdpList at h
    rw [List.mem_filterMap] at h
    obtain ⟨k, _, he⟩ := h
    refine ⟨k, ?_⟩
    cases hd : idChainGet st.idChain k with
    | none =>
      rw [hd] at he
      cases he
    | some r2 =>
      rw [hd] at he
      by_cases ho : r2.ownerRegId = regId
      · have he2 : some r2 = some r := by simpa [ho] using he
        cases he2
        exact ⟨rfl, ho⟩
      · exfalso
        simp [ho] at he
  · intro ⟨k, hd, ho⟩
    unfold getCdpList
    rw [List.mem_filterMap]
    refine ⟨k, idChainGet_mem_keys _ _ _ hd, ?_⟩
    rw [hd]
    simp [ho]

/-- Claim C4: for every parent state and operation sequence, applying the
sequence to a freshly opened child layer pair, flushing the child into
the parent and discarding it yields a state observably identical — via
`GetCdp`/`GetCdpList`, `GetCdpListByCollateralRatio`, and
`GetGlobalCollateral` — to applying the same sequence directly to the
parent. -/
theorem c4_flush_refinement (ops : List DbOp) (pIdHead : IdLayer)
    (pIdTail : List IdLayer) (pMemHead : CdpMemLayer)
    (pMemTail : List CdpMemLayer) :
    (∀ k, idChainGet (flushDb (applyDbOps
          (pushDb ⟨pIdHead :: pIdTail, pMemHead :: pMemTail⟩) ops)).idChain k
        = idChainGet (applyDbOps
            ⟨pIdHead :: pIdTail, pMemHead :: pMemTail⟩ ops).idChain k) ∧
    (∀ regId r, r ∈ getCdpList (flushDb (applyDbOps
          (pushDb ⟨pIdHead :: pIdTail, pMemHead :: pMemTail⟩) ops)) regId
        ↔ r ∈ getCdpList (applyDbOps
            ⟨pIdHead :: pIdTail, pMemHead :: pMemTail⟩ ops) regId) ∧
    (∀ t p r, r ∈ candidatesBelow (flushDb (applyDbOps
          (pushDb ⟨pIdHead :: pIdTail, pMemHead :: pMemTail⟩) ops)).memChain t p
        ↔ r ∈ candidatesBelow (applyDbOps
            ⟨pIdHead :: pIdTail, pMemHead :: pMemTail⟩ ops).memChain t p) ∧
    getGlobalCollateral (flushDb (applyDbOps
        (pushDb ⟨pIdHead :: pIdTail, pMemHead :: pMemTail⟩) ops)).memChain
      = getGlobalCollateral (applyDbOps
          ⟨pIdHead :: pIdTail, pMemHead :: pMemTail⟩ ops).memChain := by
  have h1 : dbEquiv
      (flushDb (applyDbOps
        (pushDb ⟨pIdHead :: pIdTail, pMemHead :: pMemTail⟩) ops))
      (applyDbOps (pushDb ⟨pIdHead :: pIdTail, pMemHead :: pMemTail⟩) ops) := by
    apply dbEquiv_flush
    · rw [applyDbOps_idLength]
      simp [pushDb]
    · rw [applyDbOps_memLength]
      simp [pushDb]
  have h2 : dbEquiv
      (applyDbOps (pushDb ⟨pIdHead :: pIdTail, pMemHead :: pMemTail⟩) ops)
      (applyDbOps ⟨pIdHead :: pIdTail, pMemHead :: pMemTail⟩ ops) := by
    apply dbEquiv_applyOps ops _ _
      (dbEquiv_push ⟨pIdHead :: pIdTail, pMemHead :: pMemTail⟩)
    · simp [pushDb]
    · simp
    · simp [pushDb]
    · simp
  have heq := dbEquiv_trans _ _ _ h1 h2
  refine ⟨heq.1, fun regId r => ?_, fun t p r => ?_, ?_⟩
  · rw [mem_getCdpList, mem_getCdpList]
    constructor
    · intro ⟨k, hd, ho⟩
      exact ⟨k, by rw [← heq.1 k]; exact hd, ho⟩
    · intro ⟨k, hd, ho⟩
      exact ⟨k, by rw [heq.1 k]; exact hd, ho⟩
  · rw [mem_candidatesBelow, mem_candidatesBelow]
    constructor
    · intro ⟨k, hd, hle⟩
      exact ⟨k, by rw [← heq.2.1 k]; exact hd, hle⟩
    · intro ⟨k, hd, hle⟩
      exact ⟨k, by rw [heq.2.1 k]; exact hd, hle⟩
  · unfold getGlobalCollateral
    exact heq.2.2
